import Mathlib

/-!
# Lazy range views (`range.hpp`): a shallow embedding and its verification

The C++ library builds lazy pipelines out of *views*.  Every view type exposes
`begin()` / `end()` and an iterator type with `operator++`, `operator*` and
`operator==`.  The embedding keeps exactly this shape:

* a view is a record `View m ι α` of its five operations, `ι` being the iterator
  type (the fields of the C++ `Iterator` struct) and `α` the `value_type`;
* the operations live in a monad `m`, so that the same definitions can be run
  purely (`m = Option`) or with instrumented callables;
* `MonadStuck.stuck` is the outcome of a computation that does not return a value:
  a loop that used up its fuel, or an operation that is undefined behaviour on a
  standard container (dereferencing / incrementing its end iterator);
* `operator*` may fill the memo slot of the iterator, hence `deref` returns the
  value together with the updated iterator;
* a pointer to a stored callable (`const F* _functor`) is the address of that
  callable, a natural number supplied when the stage is built.
-/

namespace Ranges

/-- A monad with a distinguished computation that yields no result. -/
class MonadStuck (m : Type → Type) where
  stuck : {γ : Type} → m γ

export MonadStuck (stuck)

instance : MonadStuck Option := ⟨none⟩

/-- The width-dependent constant `SIZE_MAX + 1` of `size_t` (64-bit). -/
def sizeModulus : Nat := 2 ^ 64

/-- The template parameter `Integer` of `Range` and `InfiniteSequence`: values are
integers, `wrap` reduces a mathematical integer to the value the type holds when it is
stored (`id` for unbounded integers, `· % 2^w` for an unsigned `w`-bit type), and
`promoted` tells whether the type is narrower than `int`, so that the operands of an
arithmetic operator are promoted to `int` first. -/
structure Integer where
  wrap : Int → Int
  promoted : Bool

/-- The value of an arithmetic expression on operands of the type, such as
`_to - _step`: for a type narrower than `int` it is computed in `int` (which holds the
mathematical result), otherwise in the type itself. -/
def Integer.arith (I : Integer) (x : Int) : Int :=
  if I.promoted then x else I.wrap x

/-- Mathematical (unbounded) integers. -/
def Integer.unbounded : Integer := ⟨fun x => x, false⟩

/-- An unsigned `w`-bit integer type: arithmetic modulo `2^w`; `int` has 32 bits, so
the types with `w < 32` (`unsigned char`, `unsigned short`) are promoted. -/
def Integer.unsigned (w : Nat) : Integer := ⟨fun x => x % 2 ^ w, decide (w < 32)⟩

/-- The type `size_t`. -/
def Integer.size_t : Integer := Integer.unsigned 64

namespace detail

/-- What every view exposes: `begin()`, `end()` and the iterator operations
`operator++`, `operator*` (returning the value and the iterator with its memo slot
updated) and `operator==`. -/
structure View (m : Type → Type) (ι α : Type) where
  begin : m ι
  end_ : m ι
  incr : ι → m ι
  deref : ι → m (α × ι)
  eq : ι → ι → Bool

variable {m : Type → Type} [Monad m] [MonadStuck m] {ι κ α β γ : Type}

/-- Embeds `ContainerView<T>`: `begin()` / `end()` forward to the container.  The container
is a list and its `const_iterator` is an index into it; incrementing or
dereferencing the end iterator of a standard container is undefined. -/
def ContainerView (m : Type → Type) [Monad m] [MonadStuck m] (t : List α) : View m Nat α where
  begin := pure 0
  end_ := pure t.length
  incr := fun i => if i < t.length then pure (i + 1) else stuck
  deref := fun i => match t[i]? with
    | some x => pure (x, i)
    | none => stuck
  eq := fun i j => i == j

/-- Embeds `RangeBuilder<RangeConstructor>`: a stage constructor whose non-source arguments
are already bound. -/
structure RangeBuilder (V W : Type) where
  f : V → W

/-- Embeds `makeRangeBuilder`. -/
def makeRangeBuilder {V W : Type} (c : V → W) : RangeBuilder V W := ⟨c⟩

/-! ### Map -/

/-- The members of `Map::Iterator`: `_it`, `_functor` (an address), `_value`. -/
structure Map.Iterator (ι β : Type) where
  it : ι
  functor : Nat
  value : Option β

/-- Embeds `Map::Iterator::operator==`. -/
def Map.Iterator.eq (inputView : View m ι α) (a b : Map.Iterator ι β) : Bool :=
  inputView.eq a.it b.it && a.functor == b.functor

/-- Embeds `Map::Iterator::operator*`: compute and store `f(*_it)` unless a value is stored. -/
def Map.Iterator.deref (inputView : View m ι α) (functor : α → m β)
    (self : Map.Iterator ι β) : m (β × Map.Iterator ι β) :=
  match self.value with
  | some v => pure (v, self)
  | none => do
    let r ← inputView.deref self.it
    let v ← functor r.1
    pure (v, { self with it := r.2, value := some v })

/-- Embeds `Map::Iterator::operator++`: advance `_it`, reset `_value`. -/
def Map.Iterator.incr (inputView : View m ι α) (self : Map.Iterator ι β) :
    m (Map.Iterator ι β) := do
  let it ← inputView.incr self.it
  pure { self with it := it, value := none }

/-- Embeds `Map<As, F>` with its `begin()` and `end()`; `addr` is `&_functor`. -/
def Map (inputView : View m ι α) (functor : α → m β) (addr : Nat) :
    View m (Map.Iterator ι β) β where
  begin := do
    let b ← inputView.begin
    pure ⟨b, addr, none⟩
  end_ := do
    let e ← inputView.end_
    pure ⟨e, addr, none⟩
  incr := Map.Iterator.incr inputView
  deref := Map.Iterator.deref inputView functor
  eq := Map.Iterator.eq inputView

/-! ### Filter -/

/-- The members of `Filter::Iterator`: `_functor` (an address), `_it`, `_end`. -/
structure Filter.Iterator (ι : Type) where
  functor : Nat
  it : ι
  end_ : ι

/-- Embeds `Filter::Iterator::operator==`. -/
def Filter.Iterator.eq (inputView : View m ι α) (a b : Filter.Iterator ι) : Bool :=
  inputView.eq a.it b.it && a.functor == b.functor

/-- Embeds `Filter::Iterator::operator*`. -/
def Filter.Iterator.deref (inputView : View m ι α) (self : Filter.Iterator ι) :
    m (α × Filter.Iterator ι) := do
  let r ← inputView.deref self.it
  pure (r.1, { self with it := r.2 })

/-- The loop `do { ++_it; } while (_it != _end && !(*_functor)(*_it));` of
`Filter::Iterator::operator++`, one unit of fuel per iteration. -/
def Filter.Iterator.incrLoop (inputView : View m ι α) (functor : α → m Bool) :
    Nat → Filter.Iterator ι → m (Filter.Iterator ι)
  | 0, _ => stuck
  | fuel + 1, self => do
    let it ← inputView.incr self.it
    if inputView.eq it self.end_ then
      pure { self with it := it }
    else do
      let r ← inputView.deref it
      let keep ← functor r.1
      if keep then pure { self with it := r.2 }
      else Filter.Iterator.incrLoop inputView functor fuel { self with it := r.2 }

/-- The loop `while (it != _inputView.end() && !(_functor)(*it)) ++it;` of
`Filter::begin`, one unit of fuel per test of the condition. -/
def Filter.beginLoop (inputView : View m ι α) (functor : α → m Bool) : Nat → ι → m ι
  | 0, _ => stuck
  | fuel + 1, it => do
    let e ← inputView.end_
    if inputView.eq it e then pure it
    else do
      let r ← inputView.deref it
      let keep ← functor r.1
      if keep then pure r.2
      else do
        let it ← inputView.incr r.2
        Filter.beginLoop inputView functor fuel it

/-- Embeds `Filter<As, F>` with its `begin()` and `end()`; `addr` is `&_functor`, `fuel`
bounds the number of iterations of each loop. -/
def Filter (fuel : Nat) (inputView : View m ι α) (functor : α → m Bool) (addr : Nat) :
    View m (Filter.Iterator ι) α where
  begin := do
    let it ← inputView.begin
    let it ← Filter.beginLoop inputView functor fuel it
    let e ← inputView.end_
    pure ⟨addr, it, e⟩
  end_ := do
    let e ← inputView.end_
    let e' ← inputView.end_
    pure ⟨addr, e, e'⟩
  incr := Filter.Iterator.incrLoop inputView functor fuel
  deref := Filter.Iterator.deref inputView
  eq := Filter.Iterator.eq inputView

/-! ### ZipWith -/

/-- The members of `ZipWith::Iterator`: `_itA`, `_itB`, `_functor` (an address),
`_endA`, `_endB`, `_value`. -/
structure ZipWith.Iterator (ι κ γ : Type) where
  itA : ι
  itB : κ
  functor : Nat
  endA : ι
  endB : κ
  value : Option γ

/-- Embeds `ZipWith::Iterator::operator==`. -/
def ZipWith.Iterator.eq (iA : View m ι α) (iB : View m κ β)
    (a b : ZipWith.Iterator ι κ γ) : Bool :=
  iA.eq a.itA b.itA && iB.eq a.itB b.itB && a.functor == b.functor

/-- Embeds `ZipWith::Iterator::operator*`: compute and store `f(*_itA, *_itB)` unless a
value is stored. -/
def ZipWith.Iterator.deref (iA : View m ι α) (iB : View m κ β) (functor : α → β → m γ)
    (self : ZipWith.Iterator ι κ γ) : m (γ × ZipWith.Iterator ι κ γ) :=
  match self.value with
  | some v => pure (v, self)
  | none => do
    let ra ← iA.deref self.itA
    let rb ← iB.deref self.itB
    let v ← functor ra.1 rb.1
    pure (v, { self with itA := ra.2, itB := rb.2, value := some v })

/-- Embeds `ZipWith::Iterator::operator++`: advance both cursors; when either is at its end
set both to their ends; reset `_value`. -/
def ZipWith.Iterator.incr (iA : View m ι α) (iB : View m κ β)
    (self : ZipWith.Iterator ι κ γ) : m (ZipWith.Iterator ι κ γ) := do
  let itA ← iA.incr self.itA
  let itB ← iB.incr self.itB
  if iA.eq itA self.endA || iB.eq itB self.endB then
    pure { self with itA := self.endA, itB := self.endB, value := none }
  else
    pure { self with itA := itA, itB := itB, value := none }

/-- Embeds `ZipWith<As, Bs, F>` with its `begin()` and `end()`; `addr` is `&_functor`. -/
def ZipWith (iA : View m ι α) (iB : View m κ β) (functor : α → β → m γ) (addr : Nat) :
    View m (ZipWith.Iterator ι κ γ) γ where
  begin := do
    let bA ← iA.begin
    let eA ← iA.end_
    let empty ← if iA.eq bA eA then pure true else do
      let bB ← iB.begin
      let eB ← iB.end_
      pure (iB.eq bB eB)
    if empty then do
      let a ← iA.end_
      let b ← iB.end_
      let eA ← iA.end_
      let eB ← iB.end_
      pure ⟨a, b, addr, eA, eB, none⟩
    else do
      let a ← iA.begin
      let b ← iB.begin
      let eA ← iA.end_
      let eB ← iB.end_
      pure ⟨a, b, addr, eA, eB, none⟩
  end_ := do
    let a ← iA.end_
    let b ← iB.end_
    let eA ← iA.end_
    let eB ← iB.end_
    pure ⟨a, b, addr, eA, eB, none⟩
  incr := ZipWith.Iterator.incr iA iB
  deref := ZipWith.Iterator.deref iA iB functor
  eq := ZipWith.Iterator.eq iA iB

/-! ### Range -/

/-- The members of `Range::Iterator`: `_from`, `_to`, `_step`. -/
structure Range.Iterator where
  from_ : Int
  to_ : Int
  step : Int
  deriving DecidableEq

/-- Embeds `Range::Iterator::operator==`. -/
def Range.Iterator.eq (a b : Range.Iterator) : Bool :=
  a.from_ == b.from_ && a.to_ == b.to_ && a.step == b.step

/-- Embeds `Range::Iterator::operator++`: the guard `_to - _step > _from` is an
arithmetic expression, `_from += _step` stores the sum in the type. -/
def Range.Iterator.incr (I : Integer) (self : Range.Iterator) : Range.Iterator :=
  if self.step > 0 then
    if I.arith (self.to_ - self.step) > self.from_ then
      { self with from_ := I.wrap (self.from_ + self.step) }
    else
      { self with from_ := self.to_ }
  else
    if I.arith (self.to_ - self.step) < self.from_ then
      { self with from_ := I.wrap (self.from_ + self.step) }
    else
      { self with from_ := self.to_ }

/-- Embeds `Range<Integer>` with its `begin()` and `end()`. -/
def Range (m : Type → Type) [Monad m] (I : Integer) (from_ to_ step : Int) :
    View m Range.Iterator Int where
  begin :=
    if (step < 0 && from_ < to_) || (step > 0 && from_ > to_) then
      pure ⟨to_, to_, step⟩
    else
      pure ⟨from_, to_, step⟩
  end_ := pure ⟨to_, to_, step⟩
  incr := fun self => pure (Range.Iterator.incr I self)
  deref := fun self => pure (self.from_, self)
  eq := Range.Iterator.eq

/-! ### InfiniteSequence -/

/-- The members of `InfiniteSequence::Iterator`: `_from`, `_step`, `_inf`. -/
structure InfiniteSequence.Iterator where
  from_ : Int
  step : Int
  inf : Bool
  deriving DecidableEq

/-- Embeds `InfiniteSequence::Iterator::operator==`. -/
def InfiniteSequence.Iterator.eq (a b : InfiniteSequence.Iterator) : Bool :=
  a.from_ == b.from_ && a.step == b.step && a.inf == b.inf

/-- Embeds `InfiniteSequence::Iterator::operator++`. -/
def InfiniteSequence.Iterator.incr (I : Integer) (self : InfiniteSequence.Iterator) :
    InfiniteSequence.Iterator :=
  { self with from_ := I.wrap (self.from_ + self.step) }

/-- Embeds `InfiniteSequence<Integer>` with its `begin()` and `end()`. -/
def InfiniteSequence (m : Type → Type) [Monad m] (I : Integer) (from_ step : Int) :
    View m InfiniteSequence.Iterator Int where
  begin := pure ⟨from_, step, false⟩
  end_ := pure ⟨from_, step, true⟩
  incr := fun self => pure (InfiniteSequence.Iterator.incr I self)
  deref := fun self => pure (self.from_, self)
  eq := InfiniteSequence.Iterator.eq

/-! ### Take -/

/-- The members of `Take::Iterator`: `_it`, `_n` (a `size_t`), `_end`. -/
structure Take.Iterator (ι : Type) where
  it : ι
  n : Nat
  end_ : ι

/-- Embeds `Take::Iterator::operator==`. -/
def Take.Iterator.eq (inputView : View m ι α) (a b : Take.Iterator ι) : Bool :=
  inputView.eq a.it b.it && a.n == b.n

/-- Embeds `Take::Iterator::operator*`. -/
def Take.Iterator.deref (inputView : View m ι α) (self : Take.Iterator ι) :
    m (α × Take.Iterator ι) := do
  let r ← inputView.deref self.it
  pure (r.1, { self with it := r.2 })

/-- Embeds `Take::Iterator::operator++`: `++_it; --_n; if (_n == 0) _it = _end;
if (_it == _end) _n = 0;` with `--_n` computed in `size_t`. -/
def Take.Iterator.incr (inputView : View m ι α) (self : Take.Iterator ι) :
    m (Take.Iterator ι) := do
  let it ← inputView.incr self.it
  let n := (self.n + sizeModulus - 1) % sizeModulus
  let it := if n == 0 then self.end_ else it
  let n := if inputView.eq it self.end_ then 0 else n
  pure { self with it := it, n := n }

/-- Embeds `Take<As>` with its `begin()` and `end()`. -/
def Take (inputView : View m ι α) (n : Nat) : View m (Take.Iterator ι) α where
  begin := do
    let b ← inputView.begin
    let e ← inputView.end_
    pure ⟨b, n, e⟩
  end_ :=
    if n == 0 then do
      let b ← inputView.begin
      let e ← inputView.end_
      pure ⟨b, 0, e⟩
    else do
      let b ← inputView.begin
      let e ← inputView.end_
      if inputView.eq b e then do
        let e1 ← inputView.end_
        let e2 ← inputView.end_
        pure ⟨e1, n, e2⟩
      else do
        let e1 ← inputView.end_
        let e2 ← inputView.end_
        pure ⟨e1, 0, e2⟩
  incr := Take.Iterator.incr inputView
  deref := Take.Iterator.deref inputView
  eq := Take.Iterator.eq inputView

end detail

/-! ### The public functions -/

open detail

variable {m : Type → Type} [Monad m] [MonadStuck m] {T U ι κ α β γ : Type}

/-- The two overloads of `view`: a type derived from `detail::View` is returned as
it is, any other type (a container) is wrapped in a `ContainerView`. -/
class HasView (m : Type → Type) (T : Type) (ι α : outParam Type) where
  view : T → View m ι α

export HasView (view)

instance instHasViewView : HasView m (View m ι α) ι α := ⟨fun t => t⟩

instance instHasViewContainer : HasView m (List α) Nat α := ⟨ContainerView m⟩

/-- Embeds `operator|`: apply the builder to `view(left)`. -/
def pipe {W : Type} [HasView m T ι α] (left : T) (builder : RangeBuilder (View m ι α) W) : W :=
  builder.f (view left)

/-- Embeds `map(input, f)`. -/
def map [HasView m T ι α] (input : T) (f : α → m β) (addr : Nat) :
    View m (Map.Iterator ι β) β :=
  Map (view input) f addr

/-- Embeds `map(f)`: the deferred stage. -/
def mapB (f : α → m β) (addr : Nat) :
    RangeBuilder (View m ι α) (View m (Map.Iterator ι β) β) :=
  makeRangeBuilder (fun input => map input f addr)

/-- Embeds `filter(input, f)`. -/
def filter (fuel : Nat) [HasView m T ι α] (input : T) (f : α → m Bool) (addr : Nat) :
    View m (Filter.Iterator ι) α :=
  Filter fuel (view input) f addr

/-- Embeds `filter(f)`: the deferred stage. -/
def filterB (fuel : Nat) (f : α → m Bool) (addr : Nat) :
    RangeBuilder (View m ι α) (View m (Filter.Iterator ι) α) :=
  makeRangeBuilder (fun input => filter fuel input f addr)

/-- Embeds `zipWith(iA, iB, f)`. -/
def zipWith [HasView m T ι α] [HasView m U κ β] (iA : T) (iB : U) (f : α → β → m γ)
    (addr : Nat) : View m (ZipWith.Iterator ι κ γ) γ :=
  ZipWith (view iA) (view iB) f addr

/-- Embeds `zip(iA, iB)`: `ZipWith` with the pair-building lambda. -/
def zip (m : Type → Type) [Monad m] [MonadStuck m] [HasView m T ι α] [HasView m U κ β]
    (iA : T) (iB : U) (addr : Nat) : View m (ZipWith.Iterator ι κ (α × β)) (α × β) :=
  ZipWith (view iA) (view iB) (fun vA vB => pure (vA, vB)) addr

/-- Embeds `range(from, to, step)`; a call without `step` passes the default `1`. -/
def range (m : Type → Type) [Monad m] (I : Integer) (from_ to_ : Int) (step : Int) :
    View m Range.Iterator Int :=
  Range m I from_ to_ step

/-- Embeds `range(to)`: from `0` with step `1`. -/
def range1 (m : Type → Type) [Monad m] (I : Integer) (to_ : Int) : View m Range.Iterator Int :=
  Range m I 0 to_ 1

/-- Embeds `infiniteSequence(from, step)`; a call without `step` passes the default
`1`. -/
def infiniteSequence (m : Type → Type) [Monad m] (I : Integer) (from_ : Int) (step : Int) :
    View m InfiniteSequence.Iterator Int :=
  InfiniteSequence m I from_ step

/-- Embeds `enumerate(a)`: `zip(infiniteSequence(static_cast<size_t>(0)), a)`, the step being
the default `1`. -/
def enumerate (m : Type → Type) [Monad m] [MonadStuck m] [HasView m T ι α] (a : T) (addr : Nat) :
    View m (ZipWith.Iterator InfiniteSequence.Iterator ι (Int × α)) (Int × α) :=
  zip m (infiniteSequence m Integer.size_t 0 1) a addr

/-- Embeds `enumerate()`: the deferred stage. -/
def enumerateB (m : Type → Type) [Monad m] [MonadStuck m] (addr : Nat) :
    RangeBuilder (View m ι α)
      (View m (ZipWith.Iterator InfiniteSequence.Iterator ι (Int × α)) (Int × α)) :=
  makeRangeBuilder (fun a => zip m (infiniteSequence m Integer.size_t 0 1) a addr)

/-- Embeds `take(in, n)`. -/
def take (m : Type → Type) [Monad m] [MonadStuck m] [HasView m T ι α] (input : T) (n : Nat) :
    View m (Take.Iterator ι) α :=
  Take (view input) n

/-- Embeds `take(n)`: the deferred stage. -/
def takeB (n : Nat) : RangeBuilder (View m ι α) (View m (Take.Iterator ι) α) :=
  makeRangeBuilder (fun input => Take input n)

/-! ### Traversal by a client -/

/-- The loop `for (; it != end; ++it) out.push_back(*it);` of a client, one unit of
fuel per comparison with `end`. -/
def traverseFrom (v : View m ι α) : Nat → ι → ι → m (List α)
  | 0, _, _ => stuck
  | fuel + 1, it, e =>
    if v.eq it e then pure []
    else do
      let r ← v.deref it
      let it ← v.incr r.2
      let rest ← traverseFrom v fuel it e
      pure (r.1 :: rest)

/-- A range-based `for` over the view: `begin()` and `end()` are evaluated once, then
the elements are collected. -/
def traverse (fuel : Nat) (v : View m ι α) : m (List α) := do
  let b ← v.begin
  let e ← v.end_
  traverseFrom v fuel b e

/-- Apply `operator++` `k` times. -/
def advance (v : View m ι α) : Nat → ι → m ι
  | 0, it => pure it
  | k + 1, it => do
    let it ← v.incr it
    advance v k it

/-- The comparison `it == v.end()` after `k` increments from `v.begin()`. -/
def atEndAfter (v : View m ι α) (k : Nat) : m Bool := do
  let b ← v.begin
  let it ← advance v k b
  let e ← v.end_
  pure (v.eq it e)

/-- The value `*it` after `k` increments from `v.begin()`. -/
def derefAfter (v : View m ι α) (k : Nat) : m α := do
  let b ← v.begin
  let it ← advance v k b
  let r ← v.deref it
  pure r.1

/-- The iterator a client holds after `k` increments from `v.begin()`. -/
def stateAfter (v : View m ι α) (k : Nat) : m ι := do
  let b ← v.begin
  advance v k b

/-- A client that calls `begin()` and then `end()` on a view, as the head of a loop
`for (auto it = v.begin(); it != v.end(); ++it)` does before its first test. -/
def beginThenEnd (v : View m ι α) : m (ι × ι) := do
  let b ← v.begin
  let e ← v.end_
  pure (b, e)

/-- A client that dereferences one iterator `k` times in a row without incrementing
it, collecting the values. -/
def derefTimes (v : View m ι α) : Nat → ι → m (List α × ι)
  | 0, it => pure ([], it)
  | k + 1, it => do
    let r ← v.deref it
    let rest ← derefTimes v k r.2
    pure (r.1 :: rest.1, rest.2)

/-- A traversal with one iterator that dereferences `reps j` times at its `j`-th
position before incrementing; one unit of fuel per comparison with `end`. -/
def traverseRepeat (v : View m ι α) (reps : Nat → Nat) : Nat → Nat → ι → ι → m (List (List α))
  | 0, _, _, _ => stuck
  | fuel + 1, j, it, e =>
    if v.eq it e then pure []
    else do
      let r ← derefTimes v (reps j) it
      let it ← v.incr r.2
      let rest ← traverseRepeat v reps fuel (j + 1) it e
      pure (r.1 :: rest)

/-- A range-based traversal that dereferences `reps j` times at position `j`. -/
def traverseRepeating (fuel : Nat) (reps : Nat → Nat) (v : View m ι α) : m (List (List α)) := do
  let b ← v.begin
  let e ← v.end_
  traverseRepeat v reps fuel 0 b e

/-! ### Instrumented runs -/

/-- What an instrumented run records: an invocation of the callable stored at an
address, an operation on an instrumented source view, or the copy or move construction
of an object (a view or a callable). -/
inductive Event where
  | call (addr : Nat)
  | srcBegin
  | srcEnd
  | srcIncr
  | srcDeref
  | copy
  | move
  deriving DecidableEq

/-- Computations that append to a trace of events and may be stuck. -/
abbrev Traced : Type → Type := StateT (List Event) Option

instance : MonadStuck Traced := ⟨fun _ => none⟩

/-- Record an event at the end of the trace. -/
def emit (e : Event) : Traced Unit := modify (fun t => t ++ [e])

/-- A unary callable stored at `addr` that records each of its invocations. -/
def traced1 (addr : Nat) (f : α → β) : α → Traced β := fun x => do
  emit (Event.call addr)
  pure (f x)

/-- A binary callable stored at `addr` that records each of its invocations. -/
def traced2 (addr : Nat) (f : α → β → γ) : α → β → Traced γ := fun x y => do
  emit (Event.call addr)
  pure (f x y)

/-- A source view that records each `begin()`, `end()`, `operator++` and `operator*`
performed on it. -/
def tracedView (v : View Traced ι α) : View Traced ι α where
  begin := do
    emit Event.srcBegin
    v.begin
  end_ := do
    emit Event.srcEnd
    v.end_
  incr := fun it => do
    emit Event.srcIncr
    v.incr it
  deref := fun it => do
    emit Event.srcDeref
    v.deref it
  eq := v.eq

/-- An object copy-constructed from `x`, such as a parameter passed by value from an
lvalue: the copy is recorded. -/
def copied (x : γ) : Traced γ := do
  emit Event.copy
  pure x

/-- An object move-constructed from `std::move(x)`, or returned from a by-value
parameter: the move is recorded. -/
def moved (x : γ) : Traced γ := do
  emit Event.move
  pure x

/-- A call of `view`, with the object constructions it performs, for each of its two
overloads. -/
class HasViewCall (T : Type) (ι α : outParam Type) where
  viewCall : T → Traced (View Traced ι α)

export HasViewCall (viewCall)

/-- Embeds `T view( T t ) { return t; }`: the parameter `t` is a copy of the argument, and
it is returned. -/
instance instHasViewCallView : HasViewCall (View Traced ι α) ι α :=
  ⟨fun input => do
    let t ← copied input
    moved t⟩

/-- Embeds `auto view( const T& t ) { return detail::ContainerView< T >{ t }; }` with the
constructor `ContainerView( const T& t ) : _t( t ) {}`, which binds the reference `_t`. -/
instance instHasViewCallContainer : HasViewCall (List α) Nat α :=
  ⟨fun t => pure (ContainerView Traced t)⟩

/-- Embeds the constructor `Map(As inputView, F functor) :
_inputView(std::move(inputView)), _functor(std::move(functor)) { }`: the two member
initialisers, in the order of the members, and an empty body. -/
def detail.Map.ctor (inputView : View Traced ι α) (functor : α → Traced β) (addr : Nat) :
    Traced (View Traced (Map.Iterator ι β) β) := do
  let inputView ← moved inputView
  let functor ← moved functor
  pure (detail.Map inputView functor addr)

/-- Embeds the constructor `Filter(As inputView, F functor) :
_inputView(std::move(inputView)), _functor(std::move(functor)) { }`. -/
def detail.Filter.ctor (fuel : Nat) (inputView : View Traced ι α) (functor : α → Traced Bool)
    (addr : Nat) : Traced (View Traced (Filter.Iterator ι) α) := do
  let inputView ← moved inputView
  let functor ← moved functor
  pure (detail.Filter fuel inputView functor addr)

/-- Embeds the constructor `ZipWith(As iA, Bs iB, F functor) : _iA(std::move(iA)),
_iB(std::move(iB)), _functor(std::move(functor)) { }`. -/
def detail.ZipWith.ctor (iA : View Traced ι α) (iB : View Traced κ β)
    (functor : α → β → Traced γ) (addr : Nat) :
    Traced (View Traced (ZipWith.Iterator ι κ γ) γ) := do
  let iA ← moved iA
  let iB ← moved iB
  let functor ← moved functor
  pure (detail.ZipWith iA iB functor addr)

/-- Embeds the constructor `Take(As inputView, size_t n) :
_inputView(std::move(inputView)), _n(n) { }`. -/
def detail.Take.ctor (inputView : View Traced ι α) (n : Nat) :
    Traced (View Traced (Take.Iterator ι) α) := do
  let inputView ← moved inputView
  pure (detail.Take inputView n)

/-- Embeds a call `map(input, f)`, whose body is `return detail::Map{ view( input ), f };`:
the arguments of the constructor are evaluated from left to right, its parameter
`functor` being a copy of `f`. -/
def mapCall [HasViewCall T ι α] (input : T) (f : α → Traced β) (addr : Nat) :
    Traced (View Traced (Map.Iterator ι β) β) := do
  let inputView ← viewCall input
  let functor ← copied f
  detail.Map.ctor inputView functor addr

/-- Embeds a call `filter(input, f)`, whose body is
`return detail::Filter{ view( input ), f };`. -/
def filterCall (fuel : Nat) [HasViewCall T ι α] (input : T) (f : α → Traced Bool)
    (addr : Nat) : Traced (View Traced (Filter.Iterator ι) α) := do
  let inputView ← viewCall input
  let functor ← copied f
  detail.Filter.ctor fuel inputView functor addr

/-- Embeds a call `zipWith(iA, iB, f)`, whose body is
`return detail::ZipWith{ view( iA ), view( iB ),  f };`. -/
def zipWithCall [HasViewCall T ι α] [HasViewCall U κ β] (iA : T) (iB : U)
    (f : α → β → Traced γ) (addr : Nat) :
    Traced (View Traced (ZipWith.Iterator ι κ γ) γ) := do
  let vA ← viewCall iA
  let vB ← viewCall iB
  let functor ← copied f
  detail.ZipWith.ctor vA vB functor addr

/-- Embeds a call `take(in, n)`, whose body is `return detail::Take{ view( in ), n };`. -/
def takeCall [HasViewCall T ι α] (input : T) (n : Nat) :
    Traced (View Traced (Take.Iterator ι) α) := do
  let inputView ← viewCall input
  detail.Take.ctor inputView n

/-- The values a traversal that dereferences `reps j` times at position `j` reads
from `map(S, f)`, positions counted from `j`. -/
def repeatedValues (f : α → β) (reps : Nat → Nat) : Nat → List α → List (List β)
  | _, [] => []
  | j, x :: xs => List.replicate (reps j) (f x) :: repeatedValues f reps (j + 1) xs

/-- The number of positions, counted from `j`, at which that traversal dereferences
at least once. -/
def dereferenced (reps : Nat → Nat) : Nat → List α → Nat
  | _, [] => 0
  | j, _ :: xs => (if reps j = 0 then 0 else 1) + dereferenced reps (j + 1) xs

/-- The number of elements `Filter::begin` tests on the list `xs`: those before the
first one satisfying `p`, and that one. -/
def leadingCalls (p : α → Bool) : List α → Nat
  | [] => 0
  | x :: xs => if p x then 1 else 1 + leadingCalls p xs

/-- The events of one run of `Filter::begin` over `map(U, f)` that tests `k` elements:
for each element an invocation of `f` (stored at `b`), by the dereference, and then one
of `p` (stored at `a`). -/
def scanEvents (b a : Nat) : Nat → List Event
  | 0 => []
  | k + 1 => Event.call b :: Event.call a :: scanEvents b a k

/-! ## Specification-level definitions -/

/-- A pure unary callable as a computation. -/
def lift1 (m : Type → Type) [Monad m] (f : α → β) : α → m β := fun a => pure (f a)

/-- A pure binary callable as a computation. -/
def lift2 (m : Type → Type) [Monad m] (f : α → β → γ) : α → β → m γ :=
  fun a b => pure (f a b)

/-- The abstract sequence of a list: its `j`-th element, `none` from its length on. -/
def ofList (l : List α) : Nat → Option α := fun j => l[j]?

/-- The view `v`, run purely, traverses the abstract sequence `s`: `pos j it` says
that iterator `it` is at position `j`; `begin()` is at position `0`; an iterator
at position `j` equals `end()` exactly when `s j = none`; and where `s j` is an
element, `operator*` returns it and stays at `j`, `operator++` moves to `j + 1`. -/
structure Lawful (v : View Option ι α) (s : Nat → Option α) (pos : Nat → ι → Prop) : Prop where
  begin_pos : ∃ b, v.begin = some b ∧ pos 0 b
  end_eq : ∃ e, v.end_ = some e ∧ ∀ j it, pos j it → (v.eq it e = true ↔ s j = none)
  eq_refl : ∀ it, v.eq it it = true
  deref_pos : ∀ j it x, pos j it → s j = some x → ∃ it', v.deref it = some (x, it') ∧ pos j it'
  incr_pos : ∀ j it x, pos j it → s j = some x → ∃ it', v.incr it = some it' ∧ pos (j + 1) it'

/-- The view `v` traverses the abstract sequence `s` up to position `N`: as `Lawful`,
with the comparison against `end()`, `operator*` and `operator++` only required at
positions below `N`. -/
structure LawfulUpTo (v : View Option ι α) (s : Nat → Option α) (pos : Nat → ι → Prop)
    (N : Nat) : Prop where
  begin_pos : ∃ b, v.begin = some b ∧ pos 0 b
  end_eq : ∃ e, v.end_ = some e ∧
    ∀ j it, j < N → pos j it → (v.eq it e = true ↔ s j = none)
  eq_refl : ∀ it, v.eq it it = true
  deref_pos : ∀ j it x, j < N → pos j it → s j = some x →
    ∃ it', v.deref it = some (x, it') ∧ pos j it'
  incr_pos : ∀ j it x, j < N → pos j it → s j = some x →
    ∃ it', v.incr it = some it' ∧ pos (j + 1) it'

/-- Position predicate of a container view over `t`. -/
def ContainerView.pos (t : List α) (j : Nat) (it : Nat) : Prop := it = j ∧ j ≤ t.length

/-- Position predicate of `Map`: the source cursor is at `j`, the callable address is
the stage's, and a stored value is the image of the `j`-th source element. -/
def Map.pos (s : Nat → Option α) (pos : Nat → ι → Prop) (f : α → β) (addr : Nat)
    (j : Nat) (it : Map.Iterator ι β) : Prop :=
  pos j it.it ∧ it.functor = addr ∧ ∀ y, it.value = some y → (s j).map f = some y

/-- The abstract sequence of `Take`: the first `n` positions of `s`. -/
def Take.seq (s : Nat → Option α) (n : Nat) : Nat → Option α :=
  fun j => if j < n then s j else none

/-- Position predicate of `Take`.  With `n = 0` the only position is `begin()` itself;
a position with an element has the source cursor there and the counter `n - j`; the
terminal position has the source cursor equal to the source's end and the counter
`0` (or still `n` when no increment happened, the source being empty). -/
def Take.pos (v : View Option ι α) (s : Nat → Option α) (pos : Nat → ι → Prop) (n : Nat)
    (j : Nat) (t : Take.Iterator ι) : Prop :=
  v.end_ = some t.end_ ∧ (∀ i, i < j → s i ≠ none) ∧
    if n = 0 then j = 0 ∧ v.begin = some t.it ∧ t.n = 0
    else if j < n ∧ (s j).isSome then pos j t.it ∧ t.n = n - j
    else v.eq t.it t.end_ = true ∧ t.n = if j = 0 then n else 0

/-- The abstract sequence of `ZipWith`: defined where both operands are. -/
def ZipWith.seq (sA : Nat → Option α) (sB : Nat → Option β) (f : α → β → γ) :
    Nat → Option γ :=
  fun j => match sA j, sB j with
    | some a, some b => some (f a b)
    | _, _ => none

/-- Position predicate of `ZipWith`: at a position with an element both cursors are
there and a stored value is that element; at the terminal position both cursors
equal their ends. -/
def ZipWith.pos (iA : View Option ι α) (iB : View Option κ β) (sA : Nat → Option α)
    (sB : Nat → Option β) (posA : Nat → ι → Prop) (posB : Nat → κ → Prop) (f : α → β → γ)
    (addr : Nat) (j : Nat) (t : ZipWith.Iterator ι κ γ) : Prop :=
  iA.end_ = some t.endA ∧ iB.end_ = some t.endB ∧ t.functor = addr ∧
    if (ZipWith.seq sA sB f j).isSome then
      posA j t.itA ∧ posB j t.itB ∧ ∀ y, t.value = some y → ZipWith.seq sA sB f j = some y
    else iA.eq t.itA t.endA = true ∧ iB.eq t.itB t.endB = true

/-- Position predicate of `Filter` over a source that traverses the list `l`: the
source cursor is at an index `i` that is the end of `l` or holds an element
satisfying `p`, and `j` elements before index `i` satisfy `p`. -/
def Filter.pos (v : View Option ι α) (l : List α) (pos : Nat → ι → Prop) (p : α → Bool)
    (addr : Nat) (j : Nat) (t : Filter.Iterator ι) : Prop :=
  v.end_ = some t.end_ ∧ t.functor = addr ∧
    ∃ i, pos i t.it ∧ i ≤ l.length ∧ ((l.take i).filter p).length = j ∧
      ∀ x, l[i]? = some x → p x = true

/-- The abstract sequence of an upward range over unbounded integers: the values
`a + j * st` below `b`. -/
def Range.seqUp (a b st : Int) : Nat → Option Int :=
  fun j => if a + j * st < b then some (a + j * st) else none

/-- Position predicate of an upward range: the current value is `a + j * st` while
that is below `b`, and `b` afterwards. -/
def Range.posUp (a b st : Int) (j : Nat) (it : Range.Iterator) : Prop :=
  it.to_ = b ∧ it.step = st ∧ it.from_ = if a + j * st < b then a + j * st else b

/-- The abstract sequence of a downward range over unbounded integers: the values
`a + j * st` above `b`. -/
def Range.seqDown (a b st : Int) : Nat → Option Int :=
  fun j => if b < a + j * st then some (a + j * st) else none

/-- Position predicate of a downward range. -/
def Range.posDown (a b st : Int) (j : Nat) (it : Range.Iterator) : Prop :=
  it.to_ = b ∧ it.step = st ∧ it.from_ = if b < a + j * st then a + j * st else b

/-- The value an `InfiniteSequence` iterator holds after `j` increments from
`begin()`. -/
def InfiniteSequence.value (I : Integer) (from_ step : Int) : Nat → Int
  | 0 => from_
  | j + 1 => I.wrap (InfiniteSequence.value I from_ step j + step)

/-- The abstract sequence of an `InfiniteSequence`: it has an element everywhere. -/
def InfiniteSequence.seq (I : Integer) (from_ step : Int) : Nat → Option Int :=
  fun j => some (InfiniteSequence.value I from_ step j)

/-- Position predicate of an `InfiniteSequence`. -/
def InfiniteSequence.pos (I : Integer) (from_ step : Int) (j : Nat)
    (it : InfiniteSequence.Iterator) : Prop :=
  it = ⟨InfiniteSequence.value I from_ step j, step, false⟩

/-- The values of an upward range over unbounded integers, as a list: `a + k * st`
for `k` below `⌈(b - a) / st⌉`. -/
def Range.upList (a b st : Int) : List Int :=
  (List.range ((b - a + st - 1) / st).toNat).map (fun k : Nat => a + (k : Int) * st)

/-- The values of a downward range over unbounded integers, as a list. -/
def Range.downList (a b st : Int) : List Int :=
  (List.range ((a - b + -st - 1) / -st).toNat).map (fun k : Nat => a + (k : Int) * st)

/-! ## Theorems -/

section Framework

variable {v : View Option ι α} {s : Nat → Option α} {pos : Nat → ι → Prop}

theorem traverseFrom_of_lawful (h : Lawful v s pos) {e : ι} (he : v.end_ = some e)
    (l : List α) : ∀ (j : Nat) (it : ι) (fuel : Nat), pos j it →
      (∀ i, s (j + i) = l[i]?) → l.length < fuel → traverseFrom v fuel it e = some l := by
  obtain ⟨e', he', hend⟩ := h.end_eq
  have hee : e' = e := by rw [he] at he'; exact (Option.some.inj he').symm
  subst hee
  induction l with
  | nil =>
    intro j it fuel hp hs hf
    obtain ⟨k, rfl⟩ : ∃ k, fuel = k + 1 := ⟨fuel - 1, by simp at hf; omega⟩
    have h0 : s j = none := by simpa using hs 0
    have : v.eq it e' = true := (hend j it hp).2 h0
    simp [traverseFrom, this]
  | cons x l ih =>
    intro j it fuel hp hs hf
    obtain ⟨k, rfl⟩ : ∃ k, fuel = k + 1 := ⟨fuel - 1, by simp at hf; omega⟩
    have h0 : s j = some x := by simpa using hs 0
    have hne : v.eq it e' = false := by
      cases hq : v.eq it e' with
      | false => rfl
      | true => rw [(hend j it hp).1 hq] at h0; cases h0
    obtain ⟨it1, hd, hp1⟩ := h.deref_pos j it x hp h0
    obtain ⟨it2, hi, hp2⟩ := h.incr_pos j it1 x hp1 h0
    have hrec := ih (j + 1) it2 k hp2
      (fun i => by have := hs (i + 1); simpa [Nat.add_assoc, Nat.add_comm 1 i] using this)
      (by simp at hf; omega)
    simp [traverseFrom, hne, hd, hi, hrec]

theorem traverse_of_lawful (h : Lawful v s pos) (l : List α) (hs : s = ofList l)
    (fuel : Nat) (hf : l.length < fuel) : traverse fuel v = some l := by
  obtain ⟨b, hb, hpb⟩ := h.begin_pos
  obtain ⟨e, he, _⟩ := h.end_eq
  have := traverseFrom_of_lawful h he l 0 b fuel hpb (by intro i; simp [hs, ofList]) hf
  simp [traverse, hb, he, this]

theorem advance_of_lawful (h : Lawful v s pos) :
    ∀ (k j : Nat) (it : ι), pos j it → (∀ i, i < k → s (j + i) ≠ none) →
      ∃ it', advance v k it = some it' ∧ pos (j + k) it' := by
  intro k
  induction k with
  | zero => intro j it hp _; exact ⟨it, by simp [advance], by simpa using hp⟩
  | succ k ih =>
    intro j it hp hs
    obtain ⟨x, hx⟩ : ∃ x, s j = some x := by
      have := hs 0 (by omega)
      cases hq : s j with
      | none => simp [hq] at this
      | some x => exact ⟨x, rfl⟩
    obtain ⟨it1, hi, hp1⟩ := h.incr_pos j it x hp hx
    obtain ⟨it2, ha, hp2⟩ := ih (j + 1) it1 hp1
      (fun i hi => by have := hs (i + 1) (by omega); simpa [Nat.add_assoc, Nat.add_comm 1 i] using this)
    refine ⟨it2, by simp [advance, hi, ha], ?_⟩
    have : j + 1 + k = j + (k + 1) := by omega
    rw [← this]; exact hp2

theorem atEndAfter_of_lawful (h : Lawful v s pos) (k : Nat)
    (hs : ∀ i, i < k → s i ≠ none) : atEndAfter v k = some (s k).isNone := by
  obtain ⟨b, hb, hpb⟩ := h.begin_pos
  obtain ⟨e, he, hend⟩ := h.end_eq
  obtain ⟨it, ha, hp⟩ := advance_of_lawful h k 0 b hpb (by simpa using hs)
  simp only [Nat.zero_add] at hp
  have := hend k it hp
  simp only [atEndAfter, hb, he, ha, Option.bind_eq_bind, Option.some_bind, Option.pure_def,
    Option.some.injEq]
  cases hq : s k with
  | none => simpa using this.2 hq
  | some x =>
    cases hv : v.eq it e with
    | false => rfl
    | true => rw [this.1 hv] at hq; cases hq

end Framework

section Stages

variable {v : View Option ι α} {s : Nat → Option α} {pos : Nat → ι → Prop}

theorem containerView_lawful (t : List α) :
    Lawful (ContainerView Option t) (ofList t) (ContainerView.pos t) where
  begin_pos := ⟨0, rfl, rfl, Nat.zero_le _⟩
  end_eq := by
    refine ⟨t.length, rfl, ?_⟩
    rintro j it ⟨rfl, hj⟩
    simp only [ContainerView, ofList, beq_iff_eq, List.getElem?_eq_none_iff]
    omega
  eq_refl := by intro it; simp [ContainerView]
  deref_pos := by
    rintro j it x ⟨rfl, hj⟩ hx
    simp only [ofList] at hx
    exact ⟨it, by simp [ContainerView, hx], rfl, hj⟩
  incr_pos := by
    rintro j it x ⟨rfl, hj⟩ hx
    simp only [ofList] at hx
    have hlt : it < t.length := by
      by_contra hge
      rw [List.getElem?_eq_none (by omega)] at hx
      cases hx
    exact ⟨it + 1, by simp [ContainerView, hlt], rfl, hlt⟩

theorem map_lawful (h : Lawful v s pos) (f : α → β) (addr : Nat) :
    Lawful (Map v (lift1 Option f) addr) (fun j => (s j).map f) (Map.pos s pos f addr) where
  begin_pos := by
    obtain ⟨b, hb, hpb⟩ := h.begin_pos
    exact ⟨⟨b, addr, none⟩, by simp [Map, hb], hpb, rfl, by simp⟩
  end_eq := by
    obtain ⟨e, he, hend⟩ := h.end_eq
    refine ⟨⟨e, addr, none⟩, by simp [Map, he], ?_⟩
    rintro j it ⟨hp, hf, _⟩
    simp [Map, Map.Iterator.eq, hf, hend j it.it hp]
  eq_refl := by intro it; simp [Map, Map.Iterator.eq, h.eq_refl]
  deref_pos := by
    rintro j it y ⟨hp, hf, hv⟩ hy
    cases hval : it.value with
    | some w =>
      have hw : w = y := by
        have := hv w hval
        rw [this] at hy; exact Option.some.inj hy
      subst hw
      exact ⟨it, by simp [Map, Map.Iterator.deref, hval], hp, hf, hv⟩
    | none =>
      obtain ⟨x, hx, rfl⟩ : ∃ x, s j = some x ∧ f x = y := by
        cases hq : s j with
        | none => simp [hq] at hy
        | some x => exact ⟨x, rfl, by simpa [hq] using hy⟩
      obtain ⟨it', hd, hp'⟩ := h.deref_pos j it.it x hp hx
      refine ⟨{ it with it := it', value := some (f x) }, ?_, hp', hf, ?_⟩
      · simp [Map, Map.Iterator.deref, hval, hd, lift1]
      · intro y hy'; simpa [hx] using hy'
  incr_pos := by
    rintro j it y ⟨hp, hf, _⟩ hy
    obtain ⟨x, hx⟩ : ∃ x, s j = some x := by
      cases hq : s j with
      | none => simp [hq] at hy
      | some x => exact ⟨x, rfl⟩
    obtain ⟨it', hi, hp'⟩ := h.incr_pos j it.it x hp hx
    exact ⟨{ it with it := it', value := none }, by simp [Map, Map.Iterator.incr, hi], hp', hf,
      by simp⟩

theorem Lawful.upTo (h : Lawful v s pos) (N : Nat) : LawfulUpTo v s pos N where
  begin_pos := h.begin_pos
  end_eq := by
    obtain ⟨e, he, hend⟩ := h.end_eq
    exact ⟨e, he, fun j it _ hp => hend j it hp⟩
  eq_refl := h.eq_refl
  deref_pos := fun j it x _ hp hs => h.deref_pos j it x hp hs
  incr_pos := fun j it x _ hp hs => h.incr_pos j it x hp hs

theorem take_lawful_upTo (h : LawfulUpTo v s pos n) (hn : n < sizeModulus) :
    Lawful (Take v n) (Take.seq s n) (Take.pos v s pos n) where
  begin_pos := by
    obtain ⟨b, hb, hpb⟩ := h.begin_pos
    obtain ⟨e, he, hend⟩ := h.end_eq
    refine ⟨⟨b, n, e⟩, by simp [Take, hb, he], he, by simp, ?_⟩
    by_cases h0 : n = 0
    · simp [h0, hb]
    · by_cases hs : s 0 = none
      · simp [h0, hs, (hend 0 b (Nat.pos_of_ne_zero h0) hpb).2 hs]
      · have hs' : (s 0).isSome = true := Option.isSome_iff_ne_none.2 hs
        simp [h0, hs', hpb, Nat.pos_of_ne_zero h0]
  end_eq := by
    obtain ⟨b, hb, hpb⟩ := h.begin_pos
    obtain ⟨e, he, hend⟩ := h.end_eq
    by_cases h0 : n = 0
    · subst h0
      refine ⟨⟨b, 0, e⟩, by simp [Take, hb, he], ?_⟩
      rintro j t ⟨_, _, hc⟩
      simp only [if_true] at hc
      obtain ⟨rfl, hit, hcnt⟩ := hc
      rw [hb] at hit
      have : t.it = b := (Option.some.inj hit).symm
      simp [Take, Take.Iterator.eq, this, hcnt, h.eq_refl, Take.seq]
    · by_cases hs0 : s 0 = none
      · have hbe : v.eq b e = true := (hend 0 b (Nat.pos_of_ne_zero h0) hpb).2 hs0
        refine ⟨⟨e, n, e⟩, by simp [Take, hb, he, h0, hbe], ?_⟩
        rintro j t ⟨hte, hpre, hc⟩
        have hj : j = 0 := by
          by_contra hj
          exact hpre 0 (Nat.pos_of_ne_zero hj) hs0
        subst hj
        rw [he] at hte
        have hte' : t.end_ = e := (Option.some.inj hte).symm
        rw [if_neg h0, if_neg (by simp [hs0])] at hc
        simp only [if_true] at hc
        simp [Take, Take.Iterator.eq, Take.seq, hs0, hc.2, ← hte', hc.1]
      · have hbe : v.eq b e = false := by
          cases hq : v.eq b e with
          | false => rfl
          | true => exact absurd ((hend 0 b (Nat.pos_of_ne_zero h0) hpb).1 hq) hs0
        refine ⟨⟨e, 0, e⟩, by simp [Take, hb, he, h0, hbe], ?_⟩
        rintro j t ⟨hte, hpre, hc⟩
        rw [he] at hte
        have hte' : t.end_ = e := (Option.some.inj hte).symm
        rw [if_neg h0] at hc
        by_cases hlive : j < n ∧ (s j).isSome = true
        · rw [if_pos hlive] at hc
          have hsj : s j ≠ none := Option.isSome_iff_ne_none.1 hlive.2
          have hne : v.eq t.it e = false := by
            cases hq : v.eq t.it e with
            | false => rfl
            | true => exact absurd ((hend j t.it hlive.1 hc.1).1 hq) hsj
          simp [Take, Take.Iterator.eq, Take.seq, hne, hlive.1, hsj]
        · rw [if_neg hlive] at hc
          have hj : j ≠ 0 := by
            rintro rfl
            exact hlive ⟨Nat.pos_of_ne_zero h0, Option.isSome_iff_ne_none.2 hs0⟩
          have hseq : Take.seq s n j = none := by
            simp only [Take.seq]
            by_cases hjn : j < n
            · have : s j = none := by
                by_contra hsj
                exact hlive ⟨hjn, Option.isSome_iff_ne_none.2 hsj⟩
              simp [hjn, this]
            · simp [hjn]
          simp [Take, Take.Iterator.eq, hseq, hc.2, hj, ← hte', hc.1]
  eq_refl := by intro it; simp [Take, Take.Iterator.eq, h.eq_refl]
  deref_pos := by
    rintro j t x ⟨hte, hpre, hc⟩ hx
    have hjn : j < n := by
      by_contra hjn
      simp [Take.seq, hjn] at hx
    have hsj : s j = some x := by simpa [Take.seq, hjn] using hx
    have h0 : n ≠ 0 := by omega
    have hlive : j < n ∧ (s j).isSome = true := ⟨hjn, by simp [hsj]⟩
    rw [if_neg h0, if_pos hlive] at hc
    obtain ⟨it', hd, hp'⟩ := h.deref_pos j t.it x hjn hc.1 hsj
    refine ⟨{ t with it := it' }, by simp [Take, Take.Iterator.deref, hd], hte, hpre, ?_⟩
    rw [if_neg h0, if_pos hlive]
    exact ⟨hp', hc.2⟩
  incr_pos := by
    rintro j t x ⟨hte, hpre, hc⟩ hx
    obtain ⟨e, he, hend⟩ := h.end_eq
    rw [he] at hte
    have hte' : t.end_ = e := (Option.some.inj hte).symm
    have hjn : j < n := by
      by_contra hjn
      simp [Take.seq, hjn] at hx
    have hsj : s j = some x := by simpa [Take.seq, hjn] using hx
    have h0 : n ≠ 0 := by omega
    have hlive : j < n ∧ (s j).isSome = true := ⟨hjn, by simp [hsj]⟩
    rw [if_neg h0, if_pos hlive] at hc
    obtain ⟨it', hi, hp'⟩ := h.incr_pos j t.it x hjn hc.1 hsj
    have hpre' : ∀ i, i < j + 1 → s i ≠ none := by
      intro i hi
      by_cases hij : i = j
      · subst hij; simp [hsj]
      · exact hpre i (by omega)
    have hdec : (t.n + sizeModulus - 1) % sizeModulus = n - (j + 1) := by
      rw [hc.2]
      have h1 : n - j + sizeModulus - 1 = n - (j + 1) + sizeModulus := by omega
      rw [h1, Nat.add_mod_right, Nat.mod_eq_of_lt (by omega)]
    by_cases hlive' : j + 1 < n ∧ (s (j + 1)).isSome = true
    · have hne : v.eq it' e = false := by
        cases hq : v.eq it' e with
        | false => rfl
        | true =>
          exact absurd ((hend (j + 1) it' hlive'.1 hp').1 hq) (Option.isSome_iff_ne_none.1 hlive'.2)
      have hnz : n - (j + 1) ≠ 0 := by omega
      refine ⟨⟨it', n - (j + 1), e⟩, ?_, by simp [he], hpre', ?_⟩
      · simp [Take, Take.Iterator.incr, hi, hdec, hnz, hte', hne]
      · rw [if_neg h0, if_pos hlive']
        exact ⟨hp', rfl⟩
    · by_cases hz : n - (j + 1) = 0
      · refine ⟨⟨e, 0, e⟩, ?_, by simp [he], hpre', ?_⟩
        · simp [Take, Take.Iterator.incr, hi, hdec, hz, hte', h.eq_refl]
        · rw [if_neg h0, if_neg hlive']
          simp [h.eq_refl]
      · have hsn : s (j + 1) = none := by
          by_contra hsn
          exact hlive' ⟨by omega, Option.isSome_iff_ne_none.2 hsn⟩
        have heq : v.eq it' e = true := (hend (j + 1) it' (by omega) hp').2 hsn
        refine ⟨⟨it', 0, e⟩, ?_, by simp [he], hpre', ?_⟩
        · simp [Take, Take.Iterator.incr, hi, hdec, hz, hte', heq]
        · rw [if_neg h0, if_neg hlive']
          simp [heq]

theorem take_lawful (h : Lawful v s pos) (n : Nat) (hn : n < sizeModulus) :
    Lawful (Take v n) (Take.seq s n) (Take.pos v s pos n) :=
  take_lawful_upTo (h.upTo n) hn

theorem zipWith_seq_eq_none {sA : Nat → Option α} {sB : Nat → Option β} {f : α → β → γ}
    {j : Nat} : ZipWith.seq sA sB f j = none ↔ sA j = none ∨ sB j = none := by
  unfold ZipWith.seq
  cases sA j <;> cases sB j <;> simp

theorem zipWith_seq_eq_some {sA : Nat → Option α} {sB : Nat → Option β} {f : α → β → γ}
    {j : Nat} {y : γ} : ZipWith.seq sA sB f j = some y ↔
      ∃ a b, sA j = some a ∧ sB j = some b ∧ f a b = y := by
  unfold ZipWith.seq
  cases sA j <;> cases sB j <;> simp

theorem eq_false_of_pos {v : View Option ι α} {s : Nat → Option α} {pos : Nat → ι → Prop}
    {e : ι} (hend : ∀ j it, pos j it → (v.eq it e = true ↔ s j = none)) {j : Nat} {it : ι}
    (hp : pos j it) (hs : s j ≠ none) : v.eq it e = false := by
  cases hq : v.eq it e with
  | false => rfl
  | true => exact absurd ((hend j it hp).1 hq) hs

theorem zipWith_lawful {iA : View Option ι α} {iB : View Option κ β}
    {sA : Nat → Option α} {sB : Nat → Option β} {posA : Nat → ι → Prop}
    {posB : Nat → κ → Prop} (hA : Lawful iA sA posA) (hB : Lawful iB sB posB)
    (f : α → β → γ) (addr : Nat) :
    Lawful (ZipWith iA iB (lift2 Option f) addr) (ZipWith.seq sA sB f)
      (ZipWith.pos iA iB sA sB posA posB f addr) where
  begin_pos := by
    obtain ⟨bA, hbA, hpA⟩ := hA.begin_pos
    obtain ⟨eA, heA, hendA⟩ := hA.end_eq
    obtain ⟨bB, hbB, hpB⟩ := hB.begin_pos
    obtain ⟨eB, heB, hendB⟩ := hB.end_eq
    by_cases hs : ZipWith.seq sA sB f 0 = none
    · refine ⟨⟨eA, eB, addr, eA, eB, none⟩, ?_, heA, heB, rfl, ?_⟩
      · rcases zipWith_seq_eq_none.1 hs with h0 | h0
        · simp [ZipWith, hbA, heA, hbB, heB, (hendA 0 bA hpA).2 h0]
        · cases hq : iA.eq bA eA <;>
            simp [ZipWith, hbA, heA, hbB, heB, (hendB 0 bB hpB).2 h0, hq]
      · rw [if_neg (by simp [hs])]
        exact ⟨hA.eq_refl _, hB.eq_refl _⟩
    · have hsA : sA 0 ≠ none := fun h0 => hs (zipWith_seq_eq_none.2 (Or.inl h0))
      have hsB : sB 0 ≠ none := fun h0 => hs (zipWith_seq_eq_none.2 (Or.inr h0))
      refine ⟨⟨bA, bB, addr, eA, eB, none⟩, ?_, heA, heB, rfl, ?_⟩
      · simp [ZipWith, hbA, heA, hbB, heB, eq_false_of_pos hendA hpA hsA,
          eq_false_of_pos hendB hpB hsB]
      · rw [if_pos (Option.isSome_iff_ne_none.2 hs)]
        exact ⟨hpA, hpB, by simp⟩
  end_eq := by
    obtain ⟨eA, heA, hendA⟩ := hA.end_eq
    obtain ⟨eB, heB, hendB⟩ := hB.end_eq
    refine ⟨⟨eA, eB, addr, eA, eB, none⟩, by simp [ZipWith, heA, heB], ?_⟩
    rintro j t ⟨htA, htB, hf, hc⟩
    rw [heA] at htA
    rw [heB] at htB
    have htA' : t.endA = eA := (Option.some.inj htA).symm
    have htB' : t.endB = eB := (Option.some.inj htB).symm
    by_cases hs : ZipWith.seq sA sB f j = none
    · rw [if_neg (by simp [hs])] at hc
      simp [ZipWith, ZipWith.Iterator.eq, hs, hf, ← htA', ← htB', hc.1, hc.2]
    · rw [if_pos (Option.isSome_iff_ne_none.2 hs)] at hc
      have hsA : sA j ≠ none := fun h0 => hs (zipWith_seq_eq_none.2 (Or.inl h0))
      simp [ZipWith, ZipWith.Iterator.eq, hs, eq_false_of_pos hendA hc.1 hsA]
  eq_refl := by intro it; simp [ZipWith, ZipWith.Iterator.eq, hA.eq_refl, hB.eq_refl]
  deref_pos := by
    rintro j t y ⟨htA, htB, hf, hc⟩ hy
    rw [if_pos (by simp [hy])] at hc
    obtain ⟨hpA, hpB, hv⟩ := hc
    cases hval : t.value with
    | some w =>
      have hw : w = y := by
        have := hv w hval
        rw [this] at hy; exact Option.some.inj hy
      subst hw
      refine ⟨t, by simp [ZipWith, ZipWith.Iterator.deref, hval], htA, htB, hf, ?_⟩
      rw [if_pos (by simp [hy])]
      exact ⟨hpA, hpB, hv⟩
    | none =>
      obtain ⟨a, b, ha, hb, rfl⟩ := zipWith_seq_eq_some.1 hy
      obtain ⟨itA, hdA, hpA'⟩ := hA.deref_pos j t.itA a hpA ha
      obtain ⟨itB, hdB, hpB'⟩ := hB.deref_pos j t.itB b hpB hb
      refine ⟨{ t with itA := itA, itB := itB, value := some (f a b) }, ?_, htA, htB, hf, ?_⟩
      · simp [ZipWith, ZipWith.Iterator.deref, hval, hdA, hdB, lift2]
      · rw [if_pos (by simp [hy])]
        exact ⟨hpA', hpB', by intro y hy'; simpa [hy] using hy'⟩
  incr_pos := by
    rintro j t y ⟨htA, htB, hf, hc⟩ hy
    rw [if_pos (by simp [hy])] at hc
    obtain ⟨hpA, hpB, _⟩ := hc
    obtain ⟨eA, heA, hendA⟩ := hA.end_eq
    obtain ⟨eB, heB, hendB⟩ := hB.end_eq
    have htA' : t.endA = eA := by rw [heA] at htA; exact (Option.some.inj htA).symm
    have htB' : t.endB = eB := by rw [heB] at htB; exact (Option.some.inj htB).symm
    obtain ⟨a, b, ha, hb, _⟩ := zipWith_seq_eq_some.1 hy
    obtain ⟨itA, hiA, hpA'⟩ := hA.incr_pos j t.itA a hpA ha
    obtain ⟨itB, hiB, hpB'⟩ := hB.incr_pos j t.itB b hpB hb
    by_cases hs : ZipWith.seq sA sB f (j + 1) = none
    · refine ⟨{ t with itA := t.endA, itB := t.endB, value := none }, ?_, htA, htB, hf, ?_⟩
      · rcases zipWith_seq_eq_none.1 hs with h0 | h0
        · simp [ZipWith, ZipWith.Iterator.incr, hiA, hiB, htA', (hendA _ _ hpA').2 h0]
        · simp [ZipWith, ZipWith.Iterator.incr, hiA, hiB, htB', (hendB _ _ hpB').2 h0]
      · rw [if_neg (by simp [hs])]
        exact ⟨hA.eq_refl _, hB.eq_refl _⟩
    · have hsA : sA (j + 1) ≠ none := fun h0 => hs (zipWith_seq_eq_none.2 (Or.inl h0))
      have hsB : sB (j + 1) ≠ none := fun h0 => hs (zipWith_seq_eq_none.2 (Or.inr h0))
      refine ⟨{ t with itA := itA, itB := itB, value := none }, ?_, htA, htB, hf, ?_⟩
      · simp [ZipWith, ZipWith.Iterator.incr, hiA, hiB, htA', htB',
          eq_false_of_pos hendA hpA' hsA, eq_false_of_pos hendB hpB' hsB]
      · rw [if_pos (Option.isSome_iff_ne_none.2 hs)]
        exact ⟨hpA', hpB', by simp⟩

theorem count_take_succ_of_false (l : List α) (p : α → Bool) {i : Nat} {x : α}
    (hx : l[i]? = some x) (hp : p x = false) :
    ((l.take (i + 1)).filter p).length = ((l.take i).filter p).length := by
  simp [List.take_succ, hx, hp]

theorem count_take_succ_of_true (l : List α) (p : α → Bool) {i : Nat} {x : α}
    (hx : l[i]? = some x) (hp : p x = true) :
    ((l.take (i + 1)).filter p).length = ((l.take i).filter p).length + 1 := by
  simp [List.take_succ, hx, hp]

theorem count_take_skip (l : List α) (p : α → Bool) (a : Nat) :
    ∀ b, a ≤ b → b ≤ l.length →
      (∀ k, a ≤ k → k < b → ∀ x, l[k]? = some x → p x = false) →
      ((l.take b).filter p).length = ((l.take a).filter p).length := by
  intro b
  induction b with
  | zero => intro hab _ _; have : a = 0 := by omega
            subst this; rfl
  | succ b ih =>
    intro hab hb hall
    by_cases hEq : a = b + 1
    · subst hEq; rfl
    · have hlt : b < l.length := by omega
      have hx : l[b]? = some l[b] := List.getElem?_eq_getElem hlt
      rw [count_take_succ_of_false l p hx (hall b (by omega) (by omega) _ hx)]
      exact ih (by omega) (by omega) (fun k hk hkb => hall k hk (by omega))

theorem filter_getElem?_count (l : List α) (p : α → Bool) {i : Nat} {x : α}
    (hx : l[i]? = some x) (hp : p x = true) :
    (l.filter p)[((l.take i).filter p).length]? = some x := by
  have hlt : i < l.length := by
    by_contra hge
    rw [List.getElem?_eq_none (by omega)] at hx
    cases hx
  have hxi : l[i] = x := by
    rw [List.getElem?_eq_getElem hlt] at hx
    exact Option.some.inj hx
  have hsplit : l = l.take i ++ x :: l.drop (i + 1) := by
    rw [← hxi, ← List.drop_eq_getElem_cons hlt, List.take_append_drop]
  have hf : l.filter p = (l.take i).filter p ++ x :: (l.drop (i + 1)).filter p := by
    conv_lhs => rw [hsplit]
    simp [List.filter_append, List.filter_cons, hp]
  rw [hf, List.getElem?_append_right (Nat.le_refl _)]
  simp

theorem filter_beginLoop_spec {v : View Option ι α} {l : List α} {pos : Nat → ι → Prop}
    (h : Lawful v (ofList l) pos) (p : α → Bool) :
    ∀ (fuel i : Nat) (it : ι), pos i it → i ≤ l.length → l.length - i < fuel →
      ∃ it' i', Filter.beginLoop v (lift1 Option p) fuel it = some it' ∧ pos i' it' ∧
        i ≤ i' ∧ i' ≤ l.length ∧
        (∀ k, i ≤ k → k < i' → ∀ x, l[k]? = some x → p x = false) ∧
        ∀ x, l[i']? = some x → p x = true := by
  obtain ⟨e, he, hend⟩ := h.end_eq
  intro fuel
  induction fuel with
  | zero => intro i it _ _ hf; omega
  | succ fuel ih =>
    intro i it hp hi hf
    by_cases hlt : i < l.length
    · have hx : l[i]? = some l[i] := List.getElem?_eq_getElem hlt
      have hne : v.eq it e = false := eq_false_of_pos hend hp (by simp [ofList, hx])
      obtain ⟨it1, hd, hp1⟩ := h.deref_pos i it l[i] hp hx
      cases hpx : p l[i] with
      | true =>
        refine ⟨it1, i, ?_, hp1, Nat.le_refl _, hi, fun k h1 h2 => by omega, ?_⟩
        · simp [Filter.beginLoop, he, hne, hd, lift1, hpx]
        · intro x hx'
          rw [hx] at hx'
          rw [← Option.some.inj hx']; exact hpx
      | false =>
        obtain ⟨it2, hi2, hp2⟩ := h.incr_pos i it1 l[i] hp1 hx
        obtain ⟨it', i', hl, hp', hle, hle', hall, hat⟩ :=
          ih (i + 1) it2 hp2 (by omega) (by omega)
        refine ⟨it', i', ?_, hp', by omega, hle', ?_, hat⟩
        · simp [Filter.beginLoop, he, hne, hd, lift1, hpx, hi2, hl]
        · intro k h1 h2 x hkx
          by_cases hk : k = i
          · subst hk
            rw [hx] at hkx
            rw [← Option.some.inj hkx]; exact hpx
          · exact hall k (by omega) h2 x hkx
    · have hil : i = l.length := by omega
      have heq : v.eq it e = true :=
        (hend i it hp).2 (by simp [ofList, hil])
      refine ⟨it, i, ?_, hp, Nat.le_refl _, hi, fun k h1 h2 => by omega, ?_⟩
      · simp [Filter.beginLoop, he, heq]
      · intro x hx
        rw [List.getElem?_eq_none (by omega)] at hx
        cases hx

theorem filter_incrLoop_spec {v : View Option ι α} {l : List α} {pos : Nat → ι → Prop}
    (h : Lawful v (ofList l) pos) (p : α → Bool) {e : ι} (he : v.end_ = some e) :
    ∀ (fuel i : Nat) (t : Filter.Iterator ι), pos i t.it → t.end_ = e → i < l.length →
      l.length - i ≤ fuel →
      ∃ it' i', Filter.Iterator.incrLoop v (lift1 Option p) fuel t = some { t with it := it' } ∧
        pos i' it' ∧ i < i' ∧ i' ≤ l.length ∧
        (∀ k, i < k → k < i' → ∀ x, l[k]? = some x → p x = false) ∧
        ∀ x, l[i']? = some x → p x = true := by
  obtain ⟨e', he', hend⟩ := h.end_eq
  have hee : e' = e := by rw [he] at he'; exact (Option.some.inj he').symm
  subst hee
  clear he
  intro fuel
  induction fuel with
  | zero => intro i t _ _ hi hf; omega
  | succ fuel ih =>
    rintro i ⟨fn, it0, en⟩ hp hte hi hf
    simp only at hp hte
    subst hte
    have hx : l[i]? = some l[i] := List.getElem?_eq_getElem hi
    obtain ⟨it1, hi1, hp1⟩ := h.incr_pos i it0 l[i] hp hx
    by_cases hlt : i + 1 < l.length
    · have hx1 : l[i + 1]? = some l[i + 1] := List.getElem?_eq_getElem hlt
      have hne : v.eq it1 en = false := eq_false_of_pos hend hp1 (by simp [ofList, hx1])
      obtain ⟨it2, hd, hp2⟩ := h.deref_pos (i + 1) it1 l[i + 1] hp1 hx1
      cases hpx : p l[i + 1] with
      | true =>
        refine ⟨it2, i + 1, ?_, hp2, Nat.lt_succ_self _, Nat.le_of_lt hlt,
          fun k h1 h2 => by omega, ?_⟩
        · simp [Filter.Iterator.incrLoop, hi1, hne, hd, lift1, hpx]
        · intro x hx'
          rw [hx1] at hx'
          rw [← Option.some.inj hx']; exact hpx
      | false =>
        obtain ⟨it', i', hl, hp', hlt', hle', hall, hat⟩ :=
          ih (i + 1) ⟨fn, it2, en⟩ hp2 rfl hlt (by omega)
        refine ⟨it', i', ?_, hp', by omega, hle', ?_, hat⟩
        · simp [Filter.Iterator.incrLoop, hi1, hne, hd, lift1, hpx]
          simpa using hl
        · intro k h1 h2 x hkx
          by_cases hk : k = i + 1
          · subst hk
            rw [hx1] at hkx
            rw [← Option.some.inj hkx]; exact hpx
          · exact hall k (by omega) h2 x hkx
    · have hil : i + 1 = l.length := by omega
      have heq : v.eq it1 en = true :=
        (hend (i + 1) it1 hp1).2 (by simp [ofList, hil])
      refine ⟨it1, i + 1, ?_, hp1, Nat.lt_succ_self _, by omega, fun k h1 h2 => by omega, ?_⟩
      · simp [Filter.Iterator.incrLoop, hi1, heq]
      · intro x hx'
        rw [List.getElem?_eq_none (by omega)] at hx'
        cases hx'

theorem filter_lawful {v : View Option ι α} {l : List α} {pos : Nat → ι → Prop}
    (h : Lawful v (ofList l) pos) (p : α → Bool) (addr fuel : Nat) (hfuel : l.length < fuel) :
    Lawful (Filter fuel v (lift1 Option p) addr) (ofList (l.filter p))
      (Filter.pos v l pos p addr) where
  begin_pos := by
    obtain ⟨b, hb, hpb⟩ := h.begin_pos
    obtain ⟨e, he, _⟩ := h.end_eq
    obtain ⟨it', i', hl, hp', _, hle, hall, hat⟩ :=
      filter_beginLoop_spec h p fuel 0 b hpb (Nat.zero_le _) (by omega)
    refine ⟨⟨addr, it', e⟩, by simp [detail.Filter, hb, hl, he], he, rfl, i', hp', hle, ?_, hat⟩
    rw [count_take_skip l p 0 i' (Nat.zero_le _) hle hall]
    rfl
  end_eq := by
    obtain ⟨e, he, hend⟩ := h.end_eq
    refine ⟨⟨addr, e, e⟩, by simp [detail.Filter, he], ?_⟩
    rintro j t ⟨_, hf, i, hp, hi, hc, hat⟩
    by_cases hlt : i < l.length
    · have hx : l[i]? = some l[i] := List.getElem?_eq_getElem hlt
      have hne : v.eq t.it e = false := eq_false_of_pos hend hp (by simp [ofList, hx])
      have := filter_getElem?_count l p hx (hat _ hx)
      rw [hc] at this
      simp [detail.Filter, Filter.Iterator.eq, hne, ofList, this]
    · have hil : i = l.length := by omega
      have heq : v.eq t.it e = true := (hend i t.it hp).2 (by simp [ofList, hil])
      have hj : j = (l.filter p).length := by rw [← hc, hil, List.take_length]
      simp [detail.Filter, Filter.Iterator.eq, heq, hf, ofList, hj]
  eq_refl := by intro it; simp [detail.Filter, Filter.Iterator.eq, h.eq_refl]
  deref_pos := by
    rintro j t y ⟨hte, hf, i, hp, hi, hc, hat⟩ hy
    have hlt : i < l.length := by
      by_contra hge
      have hil : i = l.length := by omega
      have hj : j = (l.filter p).length := by rw [← hc, hil, List.take_length]
      simp [ofList, hj] at hy
    have hx : l[i]? = some l[i] := List.getElem?_eq_getElem hlt
    have hxy : l[i] = y := by
      have := filter_getElem?_count l p hx (hat _ hx)
      rw [hc] at this
      simp only [ofList] at hy
      rw [this] at hy
      exact Option.some.inj hy
    obtain ⟨it', hd, hp'⟩ := h.deref_pos i t.it l[i] hp hx
    exact ⟨{ t with it := it' }, by simp [detail.Filter, Filter.Iterator.deref, hd, hxy], hte, hf, i,
      hp', hi, hc, hat⟩
  incr_pos := by
    rintro j t y ⟨hte, hf, i, hp, hi, hc, hat⟩ hy
    obtain ⟨e, he, _⟩ := h.end_eq
    have hte' : t.end_ = e := by rw [he] at hte; exact (Option.some.inj hte).symm
    have hlt : i < l.length := by
      by_contra hge
      have hil : i = l.length := by omega
      have hj : j = (l.filter p).length := by rw [← hc, hil, List.take_length]
      simp [ofList, hj] at hy
    have hx : l[i]? = some l[i] := List.getElem?_eq_getElem hlt
    obtain ⟨it', i', hl, hp', hlt', hle, hall, hat'⟩ :=
      filter_incrLoop_spec h p he fuel i t hp hte' hlt (by omega)
    refine ⟨{ t with it := it' }, by simpa [detail.Filter] using hl, hte, hf, i', hp', hle, ?_, hat'⟩
    rw [count_take_skip l p (i + 1) i' (by omega) hle (fun k hk => hall k (by omega)),
      count_take_succ_of_true l p hx (hat _ hx), hc]

theorem range_lawful_up (a b st : Int) (hst : 0 < st) :
    Lawful (Range Option Integer.unbounded a b st) (Range.seqUp a b st) (Range.posUp a b st) where
  begin_pos := by
    by_cases hab : b < a
    · refine ⟨⟨b, b, st⟩, ?_, rfl, rfl, ?_⟩
      · have : ¬ st < 0 := by omega
        simp [Range, hst, hab, this]
      · have : ¬ a + ((0 : Nat) : Int) * st < b := by simp; omega
        rw [if_neg this]
    · refine ⟨⟨a, b, st⟩, ?_, rfl, rfl, ?_⟩
      · have : ¬ st < 0 := by omega
        simp [Range, hab, this]
      · by_cases h2 : a < b
        · simp [h2]
        · have : a = b := by omega
          simp [this]
  end_eq := by
    refine ⟨⟨b, b, st⟩, rfl, ?_⟩
    rintro j ⟨f, t, s'⟩ ⟨h1, h2, h3⟩
    simp only at h1 h2 h3
    subst h1 h2
    by_cases hj : a + (j : Int) * s' < t
    · rw [if_pos hj] at h3
      have : ¬ f = t := by omega
      simp [Range, Range.Iterator.eq, Range.seqUp, hj, this]
    · rw [if_neg hj] at h3
      simp [Range, Range.Iterator.eq, Range.seqUp, hj, h3]
  eq_refl := by intro it; simp [Range, Range.Iterator.eq]
  deref_pos := by
    rintro j it x ⟨h1, h2, h3⟩ hx
    simp only [Range.seqUp] at hx
    by_cases hj : a + (j : Int) * st < b
    · rw [if_pos hj] at hx h3
      refine ⟨it, ?_, h1, h2, by rw [if_pos hj]; exact h3⟩
      simp [Range, h3, ← Option.some.inj hx]
    · rw [if_neg hj] at hx; cases hx
  incr_pos := by
    rintro j ⟨f, t, s'⟩ x ⟨h1, h2, h3⟩ hx
    simp only at h1 h2 h3
    subst h1 h2
    simp only [Range.seqUp] at hx
    by_cases hj : a + (j : Int) * s' < t
    · rw [if_pos hj] at h3
      subst h3
      have hcast : a + ((j + 1 : Nat) : Int) * s' = a + (j : Int) * s' + s' := by
        push_cast; ring
      by_cases hn : a + (j : Int) * s' + s' < t
      · refine ⟨⟨a + (j : Int) * s' + s', t, s'⟩, ?_, rfl, rfl, ?_⟩
        · have : a + (j : Int) * s' < t - s' := by omega
          simp [Range, Range.Iterator.incr, Integer.arith, Integer.unbounded, hst, this]
        · rw [hcast, if_pos hn]
      · refine ⟨⟨t, t, s'⟩, ?_, rfl, rfl, ?_⟩
        · have : ¬ a + (j : Int) * s' < t - s' := by omega
          simp [Range, Range.Iterator.incr, Integer.arith, Integer.unbounded, hst, this]
        · rw [hcast, if_neg hn]
    · rw [if_neg hj] at hx; cases hx

theorem range_lawful_down (a b st : Int) (hst : st < 0) :
    Lawful (Range Option Integer.unbounded a b st) (Range.seqDown a b st)
      (Range.posDown a b st) where
  begin_pos := by
    by_cases hab : a < b
    · refine ⟨⟨b, b, st⟩, ?_, rfl, rfl, ?_⟩
      · simp [Range, hst, hab]
      · have : ¬ b < a + ((0 : Nat) : Int) * st := by simp; omega
        rw [if_neg this]
    · refine ⟨⟨a, b, st⟩, ?_, rfl, rfl, ?_⟩
      · have : ¬ 0 < st := by omega
        simp [Range, hab, this]
      · by_cases h2 : b < a
        · simp [h2]
        · have : a = b := by omega
          simp [this]
  end_eq := by
    refine ⟨⟨b, b, st⟩, rfl, ?_⟩
    rintro j ⟨f, t, s'⟩ ⟨h1, h2, h3⟩
    simp only at h1 h2 h3
    subst h1 h2
    by_cases hj : t < a + (j : Int) * s'
    · rw [if_pos hj] at h3
      have : ¬ f = t := by omega
      simp [Range, Range.Iterator.eq, Range.seqDown, hj, this]
    · rw [if_neg hj] at h3
      simp [Range, Range.Iterator.eq, Range.seqDown, hj, h3]
  eq_refl := by intro it; simp [Range, Range.Iterator.eq]
  deref_pos := by
    rintro j it x ⟨h1, h2, h3⟩ hx
    simp only [Range.seqDown] at hx
    by_cases hj : b < a + (j : Int) * st
    · rw [if_pos hj] at hx h3
      refine ⟨it, ?_, h1, h2, by rw [if_pos hj]; exact h3⟩
      simp [Range, h3, ← Option.some.inj hx]
    · rw [if_neg hj] at hx; cases hx
  incr_pos := by
    rintro j ⟨f, t, s'⟩ x ⟨h1, h2, h3⟩ hx
    simp only at h1 h2 h3
    subst h1 h2
    simp only [Range.seqDown] at hx
    have hnpos : ¬ 0 < s' := by omega
    by_cases hj : t < a + (j : Int) * s'
    · rw [if_pos hj] at h3
      subst h3
      have hcast : a + ((j + 1 : Nat) : Int) * s' = a + (j : Int) * s' + s' := by
        push_cast; ring
      by_cases hn : t < a + (j : Int) * s' + s'
      · refine ⟨⟨a + (j : Int) * s' + s', t, s'⟩, ?_, rfl, rfl, ?_⟩
        · have : t - s' < a + (j : Int) * s' := by omega
          simp [Range, Range.Iterator.incr, Integer.arith, Integer.unbounded, hnpos, this]
        · rw [hcast, if_pos hn]
      · refine ⟨⟨t, t, s'⟩, ?_, rfl, rfl, ?_⟩
        · have : ¬ t - s' < a + (j : Int) * s' := by omega
          simp [Range, Range.Iterator.incr, Integer.arith, Integer.unbounded, hnpos, this]
        · rw [hcast, if_neg hn]
    · rw [if_neg hj] at hx; cases hx

theorem infiniteSequence_lawful (I : Integer) (from_ step : Int) :
    Lawful (InfiniteSequence Option I from_ step) (InfiniteSequence.seq I from_ step)
      (InfiniteSequence.pos I from_ step) where
  begin_pos := ⟨⟨from_, step, false⟩, rfl, rfl⟩
  end_eq := by
    refine ⟨⟨from_, step, true⟩, rfl, ?_⟩
    rintro j it rfl
    simp [InfiniteSequence, InfiniteSequence.Iterator.eq, InfiniteSequence.seq]
  eq_refl := by intro it; simp [InfiniteSequence, InfiniteSequence.Iterator.eq]
  deref_pos := by
    rintro j it x rfl hx
    simp only [InfiniteSequence.seq, Option.some.injEq] at hx
    exact ⟨_, by simp [InfiniteSequence, hx], rfl⟩
  incr_pos := by
    rintro j it x rfl _
    exact ⟨_, rfl, rfl⟩

end Stages

section Sequences

theorem map_ofList (l : List α) (f : α → β) :
    (fun j => (ofList l j).map f) = ofList (l.map f) := by
  funext j; simp [ofList]

theorem take_seq_ofList (l : List α) (n : Nat) : Take.seq (ofList l) n = ofList (l.take n) := by
  funext j; simp [Take.seq, ofList, List.getElem?_take]

theorem zipWith_seq_ofList (a : List α) (b : List β) (f : α → β → γ) :
    ZipWith.seq (ofList a) (ofList b) f = ofList (List.zipWith f a b) := by
  funext j
  simp only [ZipWith.seq, ofList, List.getElem?_zipWith]
  cases a[j]? <;> cases b[j]? <;> rfl

theorem ofList_ne_none {l : List α} {i : Nat} (hi : i < l.length) : ofList l i ≠ none := by
  simp [ofList, List.getElem?_eq_getElem hi]

/-- A view that traverses the list `l`: a client loop collects `l`, and the iterator
equals `end()` after `l.length` increments and not earlier. -/
theorem lawful_list {v : View Option ι α} {s : Nat → Option α} {pos : Nat → ι → Prop}
    (h : Lawful v s pos) (l : List α) (hs : s = ofList l) (fuel : Nat)
    (hf : l.length < fuel) :
    traverse fuel v = some l ∧ atEndAfter v l.length = some true ∧
      ∀ j, j < l.length → atEndAfter v j = some false := by
  subst hs
  refine ⟨traverse_of_lawful h l rfl fuel hf, ?_, ?_⟩
  · rw [atEndAfter_of_lawful h l.length (fun i hi => ofList_ne_none hi)]
    simp [ofList]
  · intro j hj
    rw [atEndAfter_of_lawful h j (fun i hi => ofList_ne_none (by omega))]
    simp [ofList, List.getElem?_eq_getElem hj]

theorem ofList_range_map (N : Nat) (g : Nat → β) :
    ofList ((List.range N).map g) = fun j => if j < N then some (g j) else none := by
  funext j
  by_cases h : j < N
  · simp [ofList, h]
  · simp only [ofList, if_neg h]
    rw [List.getElem?_eq_none]
    simp only [List.length_map, List.length_range]
    omega

theorem ceil_div_eq (d st : Int) (hst : 0 < st) :
    (d + st - 1) / st = ⌈((d : Int) : ℚ) / ((st : Int) : ℚ)⌉ := by
  have hq : (0 : ℚ) < (st : ℚ) := by exact_mod_cast hst
  have h1 : (d + st - 1) / st * st ≤ d + st - 1 := Int.ediv_mul_le _ (by omega)
  have h2 : d + st - 1 < ((d + st - 1) / st + 1) * st := Int.lt_ediv_add_one_mul_self _ hst
  symm
  rw [Int.ceil_eq_iff]
  constructor
  · rw [lt_div_iff₀ hq]
    have : ((d + st - 1) / st - 1) * st < d := by nlinarith
    exact_mod_cast this
  · rw [div_le_iff₀ hq]
    have : d ≤ (d + st - 1) / st * st := by nlinarith
    exact_mod_cast this

theorem count_up_iff (a b st : Int) (hst : 0 < st) (j : Nat) :
    j < ((b - a + st - 1) / st).toNat ↔ a + (j : Int) * st < b := by
  rw [Int.lt_toNat, ← Int.add_one_le_iff, Int.le_ediv_iff_mul_le hst]
  constructor <;> intro h <;> nlinarith

theorem count_down_iff (a b st : Int) (hst : st < 0) (j : Nat) :
    j < ((a - b + -st - 1) / -st).toNat ↔ b < a + (j : Int) * st := by
  rw [Int.lt_toNat, ← Int.add_one_le_iff, Int.le_ediv_iff_mul_le (by omega)]
  constructor <;> intro h <;> nlinarith

theorem range_seqUp_ofList (a b st : Int) (hst : 0 < st) :
    Range.seqUp a b st =
      ofList ((List.range ((b - a + st - 1) / st).toNat).map (fun k : Nat => a + (k : Int) * st)) := by
  rw [ofList_range_map]
  funext j
  simp only [Range.seqUp, count_up_iff a b st hst j]

theorem range_seqDown_ofList (a b st : Int) (hst : st < 0) :
    Range.seqDown a b st =
      ofList ((List.range ((a - b + -st - 1) / -st).toNat).map
        (fun k : Nat => a + (k : Int) * st)) := by
  rw [ofList_range_map]
  funext j
  simp only [Range.seqDown, count_down_iff a b st hst j]

theorem infiniteSequence_value_unbounded (k st : Int) (j : Nat) :
    InfiniteSequence.value Integer.unbounded k st j = k + (j : Int) * st := by
  induction j with
  | zero => simp [InfiniteSequence.value]
  | succ j ih =>
    simp only [InfiniteSequence.value]
    rw [ih]
    simp only [Integer.unbounded]
    push_cast; ring

theorem infiniteSequence_value_size_t (j : Nat) (hj : j < sizeModulus) :
    InfiniteSequence.value Integer.size_t 0 1 j = (j : Int) := by
  induction j with
  | zero => simp [InfiniteSequence.value]
  | succ j ih =>
    simp only [InfiniteSequence.value]
    rw [ih (by omega)]
    simp only [Integer.size_t, Integer.unsigned]
    have h1 : ((j : Int) + 1) < 2 ^ 64 := by
      have : sizeModulus = 2 ^ 64 := rfl
      rw [this] at hj
      exact_mod_cast hj
    rw [Int.emod_eq_of_lt (by omega) h1]
    push_cast; rfl

theorem take_infiniteSequence_seq (k st : Int) (n : Nat) :
    Take.seq (InfiniteSequence.seq Integer.unbounded k st) n =
      ofList ((List.range n).map (fun i : Nat => k + (i : Int) * st)) := by
  rw [ofList_range_map]
  funext j
  simp [Take.seq, InfiniteSequence.seq, infiniteSequence_value_unbounded]

theorem enumerate_seq (S : List α) (hS : S.length ≤ sizeModulus) :
    ZipWith.seq (InfiniteSequence.seq Integer.size_t 0 1) (ofList S) Prod.mk =
      ofList (List.zip ((List.range S.length).map (fun i : Nat => (i : Int))) S) := by
  funext j
  simp only [ZipWith.seq, ofList, List.zip_eq_zipWith, List.getElem?_zipWith,
    InfiniteSequence.seq]
  by_cases h : j < S.length
  · have h1 : ((List.range S.length).map (fun i : Nat => (i : Int)))[j]? = some (j : Int) := by
      simp [h]
    rw [h1, infiniteSequence_value_size_t j (by omega), List.getElem?_eq_getElem h]
  · have h1 : S[j]? = none := List.getElem?_eq_none (by omega)
    rw [h1]
    cases ((List.range S.length).map (fun i : Nat => (i : Int)))[j]? <;> rfl

end Sequences

section Pipelines

variable {v : View Option ι α} {pos : Nat → ι → Prop} {l : List α}

theorem lawful_congr {s s' : Nat → Option α} (h : Lawful v s pos) (hs : s = s') :
    Lawful v s' pos := hs ▸ h

/-- Over a source that traverses `l`, `map` then `filter` traverses
`(l.map f).filter p`. -/
theorem map_filter_lawful (h : Lawful v (ofList l) pos) (f : α → β) (p : β → Bool)
    (a b fuel : Nat) (hfuel : l.length < fuel) :
    ∃ pos', Lawful (Filter fuel (Map v (lift1 Option f) a) (lift1 Option p) b)
      (ofList ((l.map f).filter p)) pos' :=
  ⟨_, filter_lawful (lawful_congr (map_lawful h f a) (map_ofList l f)) p b fuel
    (by simpa using hfuel)⟩

/-- Over a source that traverses `l`, `filter` then `map` traverses
`(l.filter p).map f`. -/
theorem filter_map_lawful (h : Lawful v (ofList l) pos) (p : α → Bool) (f : α → β)
    (a b fuel : Nat) (hfuel : l.length < fuel) :
    ∃ pos', Lawful (Map (Filter fuel v (lift1 Option p) a) (lift1 Option f) b)
      (ofList ((l.filter p).map f)) pos' :=
  ⟨_, lawful_congr (map_lawful (filter_lawful h p a fuel hfuel) f b) (map_ofList _ f)⟩

/-- Over a source that traverses `l`, `map`, `filter`, `take` traverses
`((l.map f).filter p).take n`. -/
theorem map_filter_take_lawful (h : Lawful v (ofList l) pos) (f : α → β) (p : β → Bool)
    (a b fuel n : Nat) (hfuel : l.length < fuel) (hn : n < sizeModulus) :
    ∃ pos', Lawful (Take (Filter fuel (Map v (lift1 Option f) a) (lift1 Option p) b) n)
      (ofList (((l.map f).filter p).take n)) pos' := by
  obtain ⟨pos', h'⟩ := map_filter_lawful h f p a b fuel hfuel
  exact ⟨_, lawful_congr (take_lawful h' n hn) (take_seq_ofList _ n)⟩

/-- What a client sees of `map`, `filter`, `take` over a source that traverses `l`. -/
theorem pipeline_of_lawful (h : Lawful v (ofList l) pos) (f : α → β) (p : β → Bool)
    (a b fuel n k : Nat) (hfuel : l.length < fuel) (hn : n < sizeModulus)
    (hk : min n ((l.map f).filter p).length < k) :
    traverse k (Take (Filter fuel (Map v (lift1 Option f) a) (lift1 Option p) b) n) =
        some (((l.map f).filter p).take n) ∧
      atEndAfter (Take (Filter fuel (Map v (lift1 Option f) a) (lift1 Option p) b) n)
        (min n ((l.map f).filter p).length) = some true ∧
      ∀ j, j < min n ((l.map f).filter p).length →
        atEndAfter (Take (Filter fuel (Map v (lift1 Option f) a) (lift1 Option p) b) n) j
          = some false := by
  obtain ⟨_, h'⟩ := map_filter_take_lawful h f p a b fuel n hfuel hn
  have := lawful_list h' _ rfl k (by rw [List.length_take]; exact hk)
  rw [List.length_take] at this
  exact this

theorem stateAfter_of_lawful {s : Nat → Option α} (h : Lawful v s pos) (k : Nat)
    (hs : ∀ i, i < k → s i ≠ none) : ∃ t, stateAfter v k = some t ∧ pos k t := by
  obtain ⟨b, hb, hpb⟩ := h.begin_pos
  obtain ⟨t, ht, hp⟩ := advance_of_lawful h k 0 b hpb (by simpa using hs)
  simp only [Nat.zero_add] at hp
  exact ⟨t, by simp [stateAfter, hb, ht], hp⟩

theorem advance_none_of_incr_none (v : View Option ι α) :
    ∀ (j : Nat) (it t : ι), advance v j it = some t → v.incr t = none →
      ∀ d, advance v (j + 1 + d) it = none := by
  intro j
  induction j with
  | zero =>
    intro it t h hi d
    simp only [advance, Option.pure_def, Option.some.injEq] at h
    subst h
    rw [show 0 + 1 + d = d + 1 by omega, advance, hi]
    rfl
  | succ j ih =>
    intro it t h hi d
    rw [advance] at h
    cases hq : v.incr it with
    | none => rw [hq] at h; cases h
    | some it1 =>
      rw [hq] at h
      have h' : advance v j it1 = some t := by simpa using h
      have := ih it1 t h' hi d
      rw [show j + 1 + 1 + d = (j + 1 + d) + 1 by omega, advance, hq]
      simpa using this

theorem stateAfter_none (v : View Option ι α) (j : Nat) (t : ι)
    (h : stateAfter v j = some t) (hi : v.incr t = none) :
    ∀ k, j < k → stateAfter v k = none := by
  intro k hk
  obtain ⟨d, rfl⟩ : ∃ d, k = j + 1 + d := ⟨k - j - 1, by omega⟩
  cases hb : v.begin with
  | none => simp [stateAfter, hb]
  | some b =>
    have h' : advance v j b = some t := by simpa [stateAfter, hb] using h
    have := advance_none_of_incr_none v j b t h' hi d
    simp [stateAfter, hb, this]

end Pipelines

section Instrumented

theorem map_deref_cached {m : Type → Type} [Monad m] [MonadStuck m] {ι α β : Type}
    (v : View m ι α) (g : α → m β) (a : Nat) (it : Map.Iterator ι β) (w : β)
    (hw : it.value = some w) : (Map v g a).deref it = pure (w, it) := by
  simp [Map, Map.Iterator.deref, hw]

theorem map_derefTimes_cached (v : View Traced ι α) (g : α → Traced β) (a : Nat)
    (it : Map.Iterator ι β) (w : β) (hw : it.value = some w) (tr : List Event) :
    ∀ k, (derefTimes (Map v g a) k it).run tr = some ((List.replicate k w, it), tr) := by
  intro k
  induction k with
  | zero => simp [derefTimes]
  | succ k ih =>
    simp [derefTimes, map_deref_cached v g a it w hw, ih, List.replicate_succ]

theorem map_deref_fresh (S : List α) (f : α → β) (a i : Nat) (x : α) (hx : S[i]? = some x)
    (tr : List Event) :
    ((map S (traced1 a f) a).deref ⟨i, a, none⟩).run tr
      = some ((f x, ⟨i, a, some (f x)⟩), tr ++ [Event.call a]) := by
  simp [map, Map, Map.Iterator.deref, view, ContainerView, hx, traced1, emit]

theorem map_incr_container (S : List α) (f : α → β) (a i : Nat) (w : Option β)
    (hi : i < S.length) (tr : List Event) :
    ((map S (traced1 a f) a).incr ⟨i, a, w⟩).run tr = some (⟨i + 1, a, none⟩, tr) := by
  simp [map, Map, Map.Iterator.incr, view, ContainerView, hi]

theorem map_derefTimes_fresh (S : List α) (f : α → β) (a i : Nat) (x : α)
    (hx : S[i]? = some x) (tr : List Event) (k : Nat) :
    (derefTimes (map S (traced1 a f) a) (k + 1) ⟨i, a, none⟩).run tr
      = some ((List.replicate (k + 1) (f x), ⟨i, a, some (f x)⟩), tr ++ [Event.call a]) := by
  have h1 := map_deref_fresh S f a i x hx tr
  have h2 := map_derefTimes_cached (view S) (traced1 a f) a ⟨i, a, some (f x)⟩ (f x) rfl
    (tr ++ [Event.call a]) k
  simp only [map] at h1
  simp [derefTimes, map, h1, h2, List.replicate_succ]

theorem dereferenced_le (reps : Nat → Nat) (xs : List α) :
    ∀ j, dereferenced reps j xs ≤ xs.length := by
  induction xs with
  | nil => intro j; simp [dereferenced]
  | cons x xs ih =>
    intro j
    have := ih (j + 1)
    simp only [dereferenced, List.length_cons]
    split <;> omega

theorem map_traverseRepeat (S : List α) (f : α → β) (a : Nat) (reps : Nat → Nat) :
    ∀ (xs : List α) (j fuel : Nat) (tr : List Event), S.drop j = xs → j ≤ S.length →
      xs.length < fuel →
      (traverseRepeat (map S (traced1 a f) a) reps fuel j ⟨j, a, none⟩
          ⟨S.length, a, none⟩).run tr
        = some (repeatedValues f reps j xs,
            tr ++ List.replicate (dereferenced reps j xs) (Event.call a)) := by
  intro xs
  induction xs with
  | nil =>
    intro j fuel tr hd hj hf
    obtain ⟨fuel, rfl⟩ : ∃ k, fuel = k + 1 := ⟨fuel - 1, by simp at hf; omega⟩
    have hjl : j = S.length := by
      have := List.drop_eq_nil_iff.1 hd
      omega
    subst hjl
    simp [traverseRepeat, map, Map, Map.Iterator.eq, view, ContainerView, repeatedValues,
      dereferenced]
  | cons x xs ih =>
    intro j fuel tr hd hj hf
    obtain ⟨fuel, rfl⟩ : ∃ k, fuel = k + 1 := ⟨fuel - 1, by simp at hf; omega⟩
    have hjl : j < S.length := by
      by_contra hge
      rw [List.drop_eq_nil_of_le (by omega)] at hd
      cases hd
    have hx : S[j]? = some x := by
      rw [List.getElem?_eq_getElem hjl]
      have := List.drop_eq_getElem_cons hjl
      rw [hd] at this
      exact congrArg some (List.cons.inj this).1.symm
    have hd' : S.drop (j + 1) = xs := by
      have := List.drop_eq_getElem_cons hjl
      rw [hd] at this
      exact (List.cons.inj this).2.symm
    have hne : (map S (traced1 a f) a).eq ⟨j, a, none⟩ ⟨S.length, a, none⟩ = false := by
      have : ¬ j = S.length := by omega
      simp [map, Map, Map.Iterator.eq, view, ContainerView, this]
    rw [traverseRepeat, hne]
    simp only [Bool.false_eq_true, if_false, StateT.run_bind]
    cases hr : reps j with
    | zero =>
      have hrec := ih (j + 1) fuel tr hd' hjl (by simp at hf; omega)
      have hin := map_incr_container S f a j none hjl tr
      simp [derefTimes, hin, hrec, repeatedValues, dereferenced, hr]
    | succ k =>
      have hdt := map_derefTimes_fresh S f a j x hx tr k
      have hin := map_incr_container S f a j (some (f x)) hjl (tr ++ [Event.call a])
      have hrec := ih (j + 1) fuel (tr ++ [Event.call a]) hd' hjl (by simp at hf; omega)
      simp [hdt, hin, hrec, repeatedValues, dereferenced, hr, List.replicate_succ,
        Nat.add_comm 1]

theorem filter_beginLoop_trace (S : List α) (p : α → Bool) (a : Nat) :
    ∀ (xs : List α) (j fuel : Nat) (tr : List Event), S.drop j = xs → j ≤ S.length →
      xs.length < fuel →
      (Filter.beginLoop (ContainerView Traced S) (traced1 a p) fuel j).run tr
        = some (j + (xs.takeWhile (fun x => !p x)).length,
            tr ++ List.replicate (leadingCalls p xs) (Event.call a)) := by
  intro xs
  induction xs with
  | nil =>
    intro j fuel tr hd hj hf
    obtain ⟨fuel, rfl⟩ : ∃ k, fuel = k + 1 := ⟨fuel - 1, by simp at hf; omega⟩
    have hjl : j = S.length := by
      have := List.drop_eq_nil_iff.1 hd
      omega
    subst hjl
    simp [Filter.beginLoop, ContainerView, leadingCalls]
  | cons x xs ih =>
    intro j fuel tr hd hj hf
    obtain ⟨fuel, rfl⟩ : ∃ k, fuel = k + 1 := ⟨fuel - 1, by simp at hf; omega⟩
    have hjl : j < S.length := by
      by_contra hge
      rw [List.drop_eq_nil_of_le (by omega)] at hd
      cases hd
    have hx : S[j]? = some x := by
      rw [List.getElem?_eq_getElem hjl]
      have := List.drop_eq_getElem_cons hjl
      rw [hd] at this
      exact congrArg some (List.cons.inj this).1.symm
    have hd' : S.drop (j + 1) = xs := by
      have := List.drop_eq_getElem_cons hjl
      rw [hd] at this
      exact (List.cons.inj this).2.symm
    have hne : ¬ j = S.length := by omega
    cases hp : p x with
    | true =>
      simp [Filter.beginLoop, ContainerView, hne, hx, traced1, emit, hp, leadingCalls]
    | false =>
      have hrec := ih (j + 1) fuel (tr ++ [Event.call a]) hd' hjl (by simp at hf; omega)
      simp only [ContainerView] at hrec
      simp [Filter.beginLoop, ContainerView, hne, hx, traced1, emit, hp, leadingCalls, hjl,
        hrec, List.replicate_succ, Nat.add_comm 1, Nat.add_assoc]

theorem filter_begin_trace (S : List α) (p : α → Bool) (a fuel : Nat) (tr : List Event)
    (hfuel : S.length < fuel) :
    ((filter fuel S (traced1 a p) a).begin).run tr
      = some (⟨a, (S.takeWhile (fun x => !p x)).length, S.length⟩,
          tr ++ List.replicate (leadingCalls p S) (Event.call a)) := by
  have h := filter_beginLoop_trace S p a S 0 fuel tr rfl (Nat.zero_le _) hfuel
  simp only [ContainerView] at h
  simp [filter, detail.Filter, view, ContainerView, h]

theorem leadingCalls_eq (p : α → Bool) (T : List α) :
    leadingCalls p T = min ((T.takeWhile (fun x => !p x)).length + 1) T.length := by
  induction T with
  | nil => simp [leadingCalls]
  | cons x xs ih =>
    cases hp : p x with
    | true => simp [leadingCalls, hp, List.takeWhile]
    | false =>
      simp [leadingCalls, hp, List.takeWhile, ih]
      omega

theorem filter_map_beginLoop_trace (U : List γ) (f : γ → α) (p : α → Bool) (a b : Nat) :
    ∀ (xs : List γ) (j fuel : Nat) (tr : List Event), U.drop j = xs → j ≤ U.length →
      xs.length < fuel →
      ∃ it, (Filter.beginLoop (Map (ContainerView Traced U) (traced1 b f) b) (traced1 a p) fuel
          ⟨j, b, none⟩).run tr
        = some (it, tr ++ scanEvents b a (leadingCalls (fun x => p (f x)) xs)) := by
  intro xs
  induction xs with
  | nil =>
    intro j fuel tr hd hj hf
    obtain ⟨fuel, rfl⟩ : ∃ k, fuel = k + 1 := ⟨fuel - 1, by simp at hf; omega⟩
    have hjl : j = U.length := by
      have := List.drop_eq_nil_iff.1 hd
      omega
    subst hjl
    refine ⟨⟨U.length, b, none⟩, ?_⟩
    simp [Filter.beginLoop, Map, Map.Iterator.eq, ContainerView, leadingCalls, scanEvents]
  | cons x xs ih =>
    intro j fuel tr hd hj hf
    obtain ⟨fuel, rfl⟩ : ∃ k, fuel = k + 1 := ⟨fuel - 1, by simp at hf; omega⟩
    have hjl : j < U.length := by
      by_contra hge
      rw [List.drop_eq_nil_of_le (by omega)] at hd
      cases hd
    have hx : U[j]? = some x := by
      rw [List.getElem?_eq_getElem hjl]
      have := List.drop_eq_getElem_cons hjl
      rw [hd] at this
      exact congrArg some (List.cons.inj this).1.symm
    have hd' : U.drop (j + 1) = xs := by
      have := List.drop_eq_getElem_cons hjl
      rw [hd] at this
      exact (List.cons.inj this).2.symm
    have hne : ¬ j = U.length := by omega
    have hend : ∀ tr : List Event,
        ((Map (ContainerView Traced U) (traced1 b f) b).end_).run tr
          = some (⟨U.length, b, none⟩, tr) := by
      intro tr
      simp [Map, ContainerView]
    have heq : (Map (ContainerView Traced U) (traced1 b f) b).eq ⟨j, b, none⟩
        ⟨U.length, b, none⟩ = false := by
      simp [Map, Map.Iterator.eq, ContainerView, hne]
    have hderef : ∀ tr : List Event,
        ((Map (ContainerView Traced U) (traced1 b f) b).deref ⟨j, b, none⟩).run tr
          = some ((f x, ⟨j, b, some (f x)⟩), tr ++ [Event.call b]) := by
      intro tr
      simp [Map, Map.Iterator.deref, ContainerView, hx, traced1, emit]
    have hq : ∀ tr : List Event,
        (traced1 a p (f x)).run tr = some (p (f x), tr ++ [Event.call a]) := by
      intro tr
      simp [traced1, emit]
    have hincr : ∀ tr : List Event,
        ((Map (ContainerView Traced U) (traced1 b f) b).incr ⟨j, b, some (f x)⟩).run tr
          = some (⟨j + 1, b, none⟩, tr) := by
      intro tr
      simp [Map, Map.Iterator.incr, ContainerView, hjl]
    cases hp : p (f x) with
    | true =>
      refine ⟨⟨j, b, some (f x)⟩, ?_⟩
      simp [Filter.beginLoop, hend, heq, hderef, hq, hp, leadingCalls, scanEvents]
    | false =>
      obtain ⟨it, hrec⟩ := ih (j + 1) fuel (tr ++ [Event.call b, Event.call a]) hd' hjl
        (by simp at hf; omega)
      refine ⟨it, ?_⟩
      simp [Filter.beginLoop, hend, heq, hderef, hq, hp, hincr, hrec, leadingCalls, scanEvents,
        Nat.add_comm 1]

theorem filter_map_begin_trace (U : List γ) (f : γ → α) (p : α → Bool) (a b fuel : Nat)
    (hfuel : U.length < fuel) (tr : List Event) :
    ∃ it, ((filter fuel (map U (traced1 b f) b) (traced1 a p) a).begin).run tr
        = some (it, tr ++ scanEvents b a (leadingCalls (fun x => p (f x)) U)) := by
  obtain ⟨it, hl⟩ := filter_map_beginLoop_trace U f p a b U 0 fuel tr rfl (Nat.zero_le _) hfuel
  have hbeg : ((Map (ContainerView Traced U) (traced1 b f) b).begin).run tr
      = some (⟨0, b, none⟩, tr) := by
    simp [Map, ContainerView]
  have hend : ∀ tr : List Event,
      ((Map (ContainerView Traced U) (traced1 b f) b).end_).run tr
        = some (⟨U.length, b, none⟩, tr) := by
    intro tr
    simp [Map, ContainerView]
  refine ⟨⟨a, it, ⟨U.length, b, none⟩⟩, ?_⟩
  show ((detail.Filter fuel (Map (ContainerView Traced U) (traced1 b f) b) (traced1 a p)
    a).begin).run tr = _
  simp [detail.Filter, hbeg, hl, hend]

theorem filter_map_end_trace (U : List γ) (f : γ → α) (p : α → Bool) (a b fuel : Nat)
    (tr : List Event) :
    ∃ e, ((filter fuel (map U (traced1 b f) b) (traced1 a p) a).end_).run tr = some (e, tr) := by
  refine ⟨⟨a, ⟨U.length, b, none⟩, ⟨U.length, b, none⟩⟩, ?_⟩
  simp [filter, detail.Filter, map, Map, view, ContainerView]

theorem take_end_run (v : View Traced ι α) (n : Nat) (E : List Event)
    (hb : ∀ tr, ∃ b0, v.begin.run tr = some (b0, tr ++ E))
    (he : ∀ tr, ∃ e0, v.end_.run tr = some (e0, tr)) (tr : List Event) :
    ∃ e, ((Take v n).end_).run tr = some (e, tr ++ E) := by
  obtain ⟨b0, hb0⟩ := hb tr
  obtain ⟨e0, he0⟩ := he (tr ++ E)
  by_cases hn : n = 0
  · exact ⟨⟨b0, 0, e0⟩, by simp [Take, hn, hb0, he0]⟩
  · cases hq : v.eq b0 e0 with
    | true => exact ⟨⟨e0, n, e0⟩, by simp [Take, hn, hb0, he0, hq]⟩
    | false => exact ⟨⟨e0, 0, e0⟩, by simp [Take, hn, hb0, he0, hq]⟩

theorem take_begin_end_run (v : View Traced ι α) (n : Nat) (E : List Event)
    (hb : ∀ tr, ∃ b0, v.begin.run tr = some (b0, tr ++ E))
    (he : ∀ tr, ∃ e0, v.end_.run tr = some (e0, tr)) (tr : List Event) :
    ∃ r, (beginThenEnd (Take v n)).run tr = some (r, tr ++ E ++ E) := by
  obtain ⟨b0, hb0⟩ := hb tr
  obtain ⟨e0, he0⟩ := he (tr ++ E)
  obtain ⟨e, he1⟩ := take_end_run v n E hb he (tr ++ E)
  have hbeg : ((Take v n).begin).run tr = some (⟨b0, n, e0⟩, tr ++ E) := by
    simp [Take, hb0, he0]
  exact ⟨(⟨b0, n, e0⟩, e), by simp [beginThenEnd, hbeg, he1]⟩

end Instrumented

/-! ## The claims -/

section Claims

/-- C1: for every list `S` and predicate `p`, traversing `filter(S, p)` from `begin()`
until the iterator equals `end()` dereferences exactly the list filter of `S` by `p`,
in order, and the iterator equals `end()` after exactly that many increments and
after no smaller number (so with no match `begin() == end()`); the loops of `Filter`
need at most `len(S) + 1` iterations. -/
theorem filter_traverse (S : List α) (p : α → Bool) (addr fuel n : Nat)
    (hfuel : S.length < fuel) (hn : (S.filter p).length < n) :
    traverse n (filter fuel S (lift1 Option p) addr) = some (S.filter p) ∧
      atEndAfter (filter fuel S (lift1 Option p) addr) (S.filter p).length = some true ∧
      ∀ j, j < (S.filter p).length →
        atEndAfter (filter fuel S (lift1 Option p) addr) j = some false :=
  lawful_list (filter_lawful (containerView_lawful S) p addr fuel hfuel) (S.filter p) rfl n hn

theorem filter_traverse_witness :
    [1, 2, 3, 4, 5].length < 6 ∧
      traverse 3 (filter 6 [1, 2, 3, 4, 5] (lift1 Option (fun x => x % 2 == 0)) 0)
        = some [2, 4] :=
  ⟨by decide,
    (filter_traverse [1, 2, 3, 4, 5] (fun x => x % 2 == 0) 0 6 3 (by decide) (by decide)).1⟩

/-- C2: for every list `S` and function `f`, traversing `map(S, f)` from `begin()` to
`end()` yields `[f(x) for x in S]` in order, which has the length of `S`; over an empty
`S`, `begin() == end()`. -/
theorem map_traverse (S : List α) (f : α → β) (addr fuel : Nat) (hfuel : S.length < fuel) :
    traverse fuel (map S (lift1 Option f) addr) = some (S.map f) ∧
      (S.map f).length = S.length ∧
      (S = [] → atEndAfter (map S (lift1 Option f) addr) 0 = some true) := by
  have h := lawful_list (map_lawful (containerView_lawful S) f addr) (S.map f)
    (map_ofList S f) fuel (by simpa using hfuel)
  refine ⟨h.1, List.length_map S f, ?_⟩
  rintro rfl
  simpa using h.2.1

theorem map_traverse_witness :
    [1, 2, 3].length < 4 ∧
      traverse 4 (map [1, 2, 3] (lift1 Option (fun x => x + 1)) 0) = some [2, 3, 4] :=
  ⟨by decide, (map_traverse [1, 2, 3] (fun x => x + 1) 0 4 (by decide)).1⟩

/-- C3: for all lists `A`, `B` and every binary `f`, traversing `zipWith(A, B, f)` from
`begin()` to `end()` yields `[f(A[i], B[i]) for i < min(len A, len B)]` in order, of
length `min(len A, len B)`, and `zip(A, B)` yields the pairs `(A[i], B[i])`. -/
theorem zipWith_traverse (A : List α) (B : List β) (f : α → β → γ) (addr fuel : Nat)
    (hfuel : min A.length B.length < fuel) :
    traverse fuel (zipWith A B (lift2 Option f) addr) = some (List.zipWith f A B) ∧
      (List.zipWith f A B).length = min A.length B.length ∧
      traverse fuel (zip Option A B addr) = some (List.zip A B) := by
  refine ⟨?_, List.length_zipWith f A B, ?_⟩
  · exact (lawful_list (zipWith_lawful (containerView_lawful A) (containerView_lawful B) f addr)
      (List.zipWith f A B) (zipWith_seq_ofList A B f) fuel (by simpa using hfuel)).1
  · rw [List.zip_eq_zipWith]
    exact (lawful_list
      (zipWith_lawful (containerView_lawful A) (containerView_lawful B) Prod.mk addr)
      (List.zipWith Prod.mk A B) (zipWith_seq_ofList A B Prod.mk) fuel (by simpa using hfuel)).1

theorem zipWith_traverse_witness :
    min [1, 2, 3].length [10, 20].length < 3 ∧
      traverse 3 (zipWith [1, 2, 3] [10, 20] (lift2 Option (fun a b => a + b)) 0)
        = some [11, 22] :=
  ⟨by decide, (zipWith_traverse [1, 2, 3] [10, 20] (fun a b => a + b) 0 3 (by decide)).1⟩

/-- C4: for all source views `A`, `B` (whose `begin()` / `end()` return and whose end
iterators compare equal to themselves, as every view of the library does) and every
`f`: if `A` is empty or `B` is empty, that is `A.begin() == A.end()` or
`B.begin() == B.end()`, then `zipWith(A, B, f).begin() == zipWith(A, B, f).end()` with
no increment, also when the other operand is not empty; in particular for containers
of which one is the empty list. -/
theorem zipWith_empty {T U : Type} [HasView Option T ι α] [HasView Option U κ β] (A : T) (B : U)
    (f : α → β → Option γ) (addr : Nat) (bA eA : ι) (bB eB : κ)
    (hbA : (view A : View Option ι α).begin = some bA)
    (heA : (view A : View Option ι α).end_ = some eA)
    (hbB : (view B : View Option κ β).begin = some bB)
    (heB : (view B : View Option κ β).end_ = some eB)
    (hrA : (view A : View Option ι α).eq eA eA = true)
    (hrB : (view B : View Option κ β).eq eB eB = true)
    (hempty : (view A : View Option ι α).eq bA eA = true ∨
      (view B : View Option κ β).eq bB eB = true) :
    atEndAfter (zipWith A B f addr) 0 = some true := by
  rcases hempty with h | h
  · simp [atEndAfter, advance, zipWith, ZipWith, ZipWith.Iterator.eq, hbA, heA, hbB, heB, hrA,
      hrB, h]
  · cases hq : (view A : View Option ι α).eq bA eA <;>
      simp [atEndAfter, advance, zipWith, ZipWith, ZipWith.Iterator.eq, hbA, heA, hbB, heB,
        hrA, hrB, h, hq]

theorem zipWith_empty_witness :
    atEndAfter (zipWith ([] : List Nat) [1] (lift2 Option (fun a b => a + b)) 0) 0 = some true ∧
      atEndAfter (zipWith [1] ([] : List Nat) (lift2 Option (fun a b => a + b)) 0) 0
        = some true :=
  ⟨zipWith_empty ([] : List Nat) [1] (lift2 Option (fun a b => a + b)) 0 0 0 0 1
      rfl rfl rfl rfl rfl rfl (Or.inl rfl),
    zipWith_empty [1] ([] : List Nat) (lift2 Option (fun a b => a + b)) 0 0 1 0 0
      rfl rfl rfl rfl rfl rfl (Or.inr rfl)⟩

/-- C8: for every list `S` and every `n` (a `size_t`), traversing `take(S, n)` from
`begin()` to `end()` yields the first `min(n, len S)` elements of `S` in order, and the
iterator equals `end()` after exactly `min(n, len S)` increments and after no smaller
number; so `take(S, 0)` has `begin() == end()` and `n > len S` stops at the end of `S`. -/
theorem take_traverse (S : List α) (n fuel : Nat) (hn : n < sizeModulus)
    (hfuel : min n S.length < fuel) :
    traverse fuel (take Option S n) = some (S.take n) ∧
      (S.take n).length = min n S.length ∧
      atEndAfter (take Option S n) (min n S.length) = some true ∧
      ∀ j, j < min n S.length → atEndAfter (take Option S n) j = some false := by
  have h := lawful_list (take_lawful (containerView_lawful S) n hn) (S.take n)
    (take_seq_ofList S n) fuel (by simpa using hfuel)
  rw [List.length_take] at h
  exact ⟨h.1, List.length_take n S, h.2.1, h.2.2⟩

theorem take_traverse_witness :
    5 < sizeModulus ∧ min 5 ['A', 'B', 'C', 'D'].length < 5 ∧
      traverse 5 (take Option ['A', 'B', 'C', 'D'] 5) = some ['A', 'B', 'C', 'D'] :=
  ⟨by decide, by decide, (take_traverse ['A', 'B', 'C', 'D'] 5 5 (by decide) (by decide)).1⟩

/-- C5: over unbounded integers, for `st > 0` and all `a`, `b` (in particular `a < b`),
traversing `range(a, b, st)` yields `a, a + st, a + 2 st, ...`: exactly the `a + k st`
(`k ≥ 0`) that are below `b`, that is `⌈(b - a) / st⌉ = (b - a + st - 1) / st` elements,
none of them `b` or beyond; and `range(n)` is `range(0, n, 1)`, yielding
`0, 1, ..., n - 1`. -/
theorem range_up_traverse (a b st n : Int) (fuel : Nat) (hst : 0 < st)
    (hfuel : ((b - a + st - 1) / st).toNat < fuel) :
    traverse fuel (range Option Integer.unbounded a b st) =
        some ((List.range ((b - a + st - 1) / st).toNat).map (fun k : Nat => a + (k : Int) * st)) ∧
      (∀ k : Nat, k < ((b - a + st - 1) / st).toNat ↔ a + (k : Int) * st < b) ∧
      (b - a + st - 1) / st = ⌈((b - a : Int) : ℚ) / ((st : Int) : ℚ)⌉ ∧
      (∀ x, x ∈ (List.range ((b - a + st - 1) / st).toNat).map (fun k : Nat => a + (k : Int) * st)
        → a ≤ x ∧ x < b) ∧
      range1 Option Integer.unbounded n = range Option Integer.unbounded 0 n 1 ∧
      traverse (n.toNat + 1) (range1 Option Integer.unbounded n) =
        some ((List.range n.toNat).map (fun k : Nat => (k : Int))) := by
  refine ⟨?_, count_up_iff a b st hst, ceil_div_eq (b - a) st hst, ?_, rfl, ?_⟩
  · exact (lawful_list (range_lawful_up a b st hst) _ (range_seqUp_ofList a b st hst) fuel
      (by simpa using hfuel)).1
  · intro x hx
    obtain ⟨k, hk, rfl⟩ := List.mem_map.1 hx
    have hk' := (count_up_iff a b st hst k).1 (List.mem_range.1 hk)
    have : 0 ≤ (k : Int) * st := mul_nonneg (Int.ofNat_nonneg k) (le_of_lt hst)
    exact ⟨by omega, hk'⟩
  · have h := (lawful_list (range_lawful_up 0 n 1 Int.one_pos) _
      (range_seqUp_ofList 0 n 1 Int.one_pos) (n.toNat + 1) (by simp)).1
    simpa [range1, range] using h

theorem range_up_traverse_witness :
    (0 : Int) < 3 ∧ ((32 - 1 + 3 - 1) / 3 : Int).toNat < 12 ∧
      traverse 12 (range Option Integer.unbounded 1 32 3) =
        some [1, 4, 7, 10, 13, 16, 19, 22, 25, 28, 31] ∧
      traverse 6 (range1 Option Integer.unbounded 5) = some [0, 1, 2, 3, 4] :=
  ⟨by decide, by decide, (range_up_traverse 1 32 3 5 12 (by decide) (by decide)).1,
    (range_up_traverse 1 32 3 5 12 (by decide) (by decide)).2.2.2.2.2⟩

/-- C6: over unbounded integers, for `st < 0` and all `a`, `b` (in particular `a > b`),
traversing `range(a, b, st)` yields `a, a + st, a + 2 st, ...`: exactly the `a + k st`
(`k ≥ 0`) that are above `b`, in decreasing order, none of them `b` or below. -/
theorem range_down_traverse (a b st : Int) (fuel : Nat) (hst : st < 0)
    (hfuel : ((a - b + -st - 1) / -st).toNat < fuel) :
    traverse fuel (range Option Integer.unbounded a b st) =
        some ((List.range ((a - b + -st - 1) / -st).toNat).map
          (fun k : Nat => a + (k : Int) * st)) ∧
      (∀ k : Nat, k < ((a - b + -st - 1) / -st).toNat ↔ b < a + (k : Int) * st) ∧
      (∀ x, x ∈ (List.range ((a - b + -st - 1) / -st).toNat).map
          (fun k : Nat => a + (k : Int) * st) → b < x ∧ x ≤ a) ∧
      List.Pairwise (fun x y => y < x)
        ((List.range ((a - b + -st - 1) / -st).toNat).map (fun k : Nat => a + (k : Int) * st)) := by
  refine ⟨?_, count_down_iff a b st hst, ?_, ?_⟩
  · exact (lawful_list (range_lawful_down a b st hst) _ (range_seqDown_ofList a b st hst) fuel
      (by simpa using hfuel)).1
  · intro x hx
    obtain ⟨k, hk, rfl⟩ := List.mem_map.1 hx
    have hk' := (count_down_iff a b st hst k).1 (List.mem_range.1 hk)
    have : (k : Int) * st ≤ 0 := mul_nonpos_of_nonneg_of_nonpos (Int.ofNat_nonneg k) (le_of_lt hst)
    exact ⟨hk', by omega⟩
  · rw [List.pairwise_map]
    refine (List.pairwise_lt_range _).imp ?_
    intro i j hij
    have : (i : Int) < (j : Int) := by exact_mod_cast hij
    nlinarith

theorem range_down_traverse_witness :
    (-3 : Int) < 0 ∧ ((10 - 0 + - -3 - 1) / - -3 : Int).toNat < 5 ∧
      traverse 5 (range Option Integer.unbounded 10 0 (-3)) = some [10, 7, 4, 1] :=
  ⟨by decide, by decide, (range_down_traverse 10 0 (-3) 5 (by decide) (by decide)).1⟩

/-- C7: for every integer type and all `from`, `to`, `step` with `step < 0 ∧ from < to`
or `step > 0 ∧ from > to`, `range(from, to, step).begin()` is the iterator `end()`
returns and compares equal to it, so the range is empty; and `end()` is always the
iterator whose current value is `to`. -/
theorem range_mismatch_empty (I : Integer) (from_ to_ step : Int) :
    ((step < 0 ∧ from_ < to_) ∨ (0 < step ∧ to_ < from_) →
        (range Option I from_ to_ step).begin = (range Option I from_ to_ step).end_ ∧
        atEndAfter (range Option I from_ to_ step) 0 = some true ∧
        traverse 1 (range Option I from_ to_ step) = some []) ∧
      (range Option I from_ to_ step).end_ = some ⟨to_, to_, step⟩ ∧
      (range Option I from_ to_ step).deref ⟨to_, to_, step⟩ = some (to_, ⟨to_, to_, step⟩) := by
  refine ⟨?_, rfl, rfl⟩
  intro h
  have hb : (range Option I from_ to_ step).begin = some ⟨to_, to_, step⟩ := by
    rcases h with ⟨h1, h2⟩ | ⟨h1, h2⟩
    · simp [range, Range, h1, h2]
    · simp [range, Range, h1, h2]
  have he : (range Option I from_ to_ step).end_ = some ⟨to_, to_, step⟩ := rfl
  refine ⟨by rw [hb, he], ?_, ?_⟩
  · simp [atEndAfter, advance, range, Range, Range.Iterator.eq, h]
  · simp [traverse, traverseFrom, range, Range, Range.Iterator.eq, h]

theorem range_mismatch_empty_witness :
    (((-2 : Int) < 0 ∧ (0 : Int) < 4) ∨ ((0 : Int) < -2 ∧ (4 : Int) < 0)) ∧
      atEndAfter (range Option Integer.unbounded 0 4 (-2)) 0 = some true :=
  ⟨Or.inl ⟨by decide, by decide⟩,
    ((range_mismatch_empty Integer.unbounded 0 4 (-2)).1 (Or.inl ⟨by decide, by decide⟩)).2.1⟩

/-- C9: over unbounded integers, for every `k`, every step `st` and every `n` (a
`size_t`), traversing `take(infiniteSequence(k, st), n)` terminates and yields the `n`
elements `k, k + st, ..., k + (n - 1) st` (`k, k + 1, ..., k + n - 1` for the default
step `1`); the iterator equals `end()` after `n` increments and after no smaller
number. -/
theorem take_infiniteSequence_traverse (k st : Int) (n fuel : Nat) (hn : n < sizeModulus)
    (hfuel : n < fuel) :
    traverse fuel (take Option (infiniteSequence Option Integer.unbounded k st) n) =
        some ((List.range n).map (fun i : Nat => k + (i : Int) * st)) ∧
      ((List.range n).map (fun i : Nat => k + (i : Int) * st)).length = n ∧
      traverse fuel (take Option (infiniteSequence Option Integer.unbounded k 1) n) =
        some ((List.range n).map (fun i : Nat => k + (i : Int))) ∧
      atEndAfter (take Option (infiniteSequence Option Integer.unbounded k st) n) n = some true ∧
      ∀ j, j < n →
        atEndAfter (take Option (infiniteSequence Option Integer.unbounded k st) n) j
          = some false := by
  have h := lawful_list (take_lawful (infiniteSequence_lawful Integer.unbounded k st) n hn) _
    (take_infiniteSequence_seq k st n) fuel (by simpa using hfuel)
  have h1 := lawful_list (take_lawful (infiniteSequence_lawful Integer.unbounded k 1) n hn) _
    (take_infiniteSequence_seq k 1 n) fuel (by simpa using hfuel)
  simp only [List.length_map, List.length_range] at h
  refine ⟨h.1, by simp, ?_, h.2.1, h.2.2⟩
  simpa using h1.1

theorem take_infiniteSequence_traverse_witness :
    10 < sizeModulus ∧ 10 < 11 ∧
      traverse 11 (take Option (infiniteSequence Option Integer.unbounded 0 (-1)) 10) =
        some [0, -1, -2, -3, -4, -5, -6, -7, -8, -9] :=
  ⟨by decide, by decide,
    (take_infiniteSequence_traverse 0 (-1) 10 11 (by decide) (by decide)).1⟩

/-- C10: for every list `S` (of a length a `size_t` can count), traversing `enumerate(S)`
yields the pairs `(0, S[0]), (1, S[1]), ..., (len S - 1, S[len S - 1])` in order and
stops after `len S` elements although the counter operand never ends; over an empty
`S` it is empty. -/
theorem enumerate_traverse (S : List α) (addr fuel : Nat) (hS : S.length ≤ sizeModulus)
    (hfuel : S.length < fuel) :
    traverse fuel (enumerate Option S addr) =
        some (List.zip ((List.range S.length).map (fun i : Nat => (i : Int))) S) ∧
      (List.zip ((List.range S.length).map (fun i : Nat => (i : Int))) S).length = S.length ∧
      atEndAfter (enumerate Option S addr) S.length = some true ∧
      (∀ j, j < S.length → atEndAfter (enumerate Option S addr) j = some false) ∧
      (S = [] → traverse fuel (enumerate Option S addr) = some []) := by
  have hlen : (List.zip ((List.range S.length).map (fun i : Nat => (i : Int))) S).length
      = S.length := by simp
  have h := lawful_list
    (zipWith_lawful (infiniteSequence_lawful Integer.size_t 0 1) (containerView_lawful S)
      Prod.mk addr) _ (enumerate_seq S hS) fuel (by rw [hlen]; exact hfuel)
  rw [hlen] at h
  refine ⟨h.1, hlen, h.2.1, h.2.2, ?_⟩
  rintro rfl
  simpa using h.1

theorem enumerate_traverse_witness :
    ['A', 'B', 'C', 'D'].length ≤ sizeModulus ∧ ['A', 'B', 'C', 'D'].length < 5 ∧
      traverse 5 (enumerate Option ['A', 'B', 'C', 'D'] 0) =
        some [(0, 'A'), (1, 'B'), (2, 'C'), (3, 'D')] :=
  ⟨by decide, by decide,
    (enumerate_traverse ['A', 'B', 'C', 'D'] 0 5 (by decide) (by decide)).1⟩

/-- C11: for every source `S` (a container or a view), all callables and every count,
the pipe form is the very view the direct call builds: `S | map(f)` is `map(S, f)`,
`S | filter(p)` is `filter(S, p)`, `S | take(n)` is `take(S, n)`, `S | enumerate()` is
`enumerate(S)`, and `S | map(f) | filter(q)` is `filter(map(S, f), q)`, so both forms
produce the same element sequence at every fuel.  For a container the sequence does
not depend on where the two forms store their callables either. -/
theorem pipe_eq_direct {m : Type → Type} [Monad m] [MonadStuck m] {T ι α β : Type}
    [HasView m T ι α] (S : T) (f : α → m β) (p : α → m Bool) (q : β → m Bool)
    (n a b fuel : Nat) (L : List α) (g : α → β) (r : β → Bool) :
    pipe S (mapB f a) = map S f a ∧
      pipe S (filterB fuel p a) = filter fuel S p a ∧
      pipe S (takeB n) = take m S n ∧
      pipe S (enumerateB m a) = enumerate m S a ∧
      pipe (pipe S (mapB f a)) (filterB fuel q b) = filter fuel (map S f a) q b ∧
      (∀ k, traverse k (pipe (pipe S (mapB f a)) (filterB fuel q b)) =
        traverse k (filter fuel (map S f a) q b)) ∧
      (∀ a' b' fuel' k, L.length < fuel → L.length < fuel' →
        ((L.map g).filter r).length < k →
        traverse k (pipe (pipe L (mapB (lift1 Option g) a)) (filterB fuel (lift1 Option r) b)) =
          traverse k (filter fuel' (map L (lift1 Option g) a') (lift1 Option r) b')) := by
  refine ⟨rfl, rfl, rfl, rfl, rfl, fun _ => rfl, ?_⟩
  intro a' b' fuel' k h1 h2 hk
  obtain ⟨_, hl⟩ := map_filter_lawful (containerView_lawful L) g r a b fuel h1
  obtain ⟨_, hr⟩ := map_filter_lawful (containerView_lawful L) g r a' b' fuel' h2
  exact ((lawful_list hl _ rfl k hk).1).trans ((lawful_list hr _ rfl k hk).1).symm

theorem pipe_eq_direct_witness :
    traverse 4 (pipe (pipe [0, 1, 2, 3] (mapB (lift1 Option (fun x => x + 10)) 7))
        (filterB 5 (lift1 Option (fun x => x % 2 == 0)) 8)) =
      traverse 4 (filter 9 (map [0, 1, 2, 3] (lift1 Option (fun x => x + 10)) 1)
        (lift1 Option (fun x => x % 2 == 0)) 2) :=
  (pipe_eq_direct [0, 1, 2, 3] (lift1 Option (fun x => x + 10)) (lift1 Option (fun _ => true))
    (lift1 Option (fun x => x % 2 == 0)) 0 7 8 5 [0, 1, 2, 3] (fun x => x + 10)
    (fun x => x % 2 == 0)).2.2.2.2.2.2 1 2 9 4 (by decide) (by decide) (by decide)

/-- C12: for every finite source (a container `S`, or a range over unbounded integers,
upward or downward), function `f`, predicate `p` and count `n` (a `size_t`), traversing
`source | map(f) | filter(p) | take(n)` yields the first `n` elements (all, if fewer) of
`[f(x) for x in source]` filtered by `p`, and the iterator equals `end()` after exactly
that many increments and after no smaller number, whichever of count and source runs
out first. -/
theorem pipeline_traverse (S : List α) (f : α → β) (p : β → Bool) (lo hi st : Int)
    (g : Int → β) (a b fuel n k : Nat) (hn : n < sizeModulus) :
    (S.length < fuel → min n ((S.map f).filter p).length < k →
      traverse k (pipe (pipe (pipe S (mapB (lift1 Option f) a))
          (filterB fuel (lift1 Option p) b)) (takeB n)) =
        some (((S.map f).filter p).take n) ∧
      atEndAfter (pipe (pipe (pipe S (mapB (lift1 Option f) a))
          (filterB fuel (lift1 Option p) b)) (takeB n))
        (min n ((S.map f).filter p).length) = some true ∧
      ∀ j, j < min n ((S.map f).filter p).length →
        atEndAfter (pipe (pipe (pipe S (mapB (lift1 Option f) a))
          (filterB fuel (lift1 Option p) b)) (takeB n)) j = some false) ∧
    (0 < st → (Range.upList lo hi st).length < fuel →
      min n (((Range.upList lo hi st).map g).filter p).length < k →
      traverse k (pipe (pipe (pipe (range Option Integer.unbounded lo hi st)
          (mapB (lift1 Option g) a)) (filterB fuel (lift1 Option p) b)) (takeB n)) =
        some ((((Range.upList lo hi st).map g).filter p).take n) ∧
      atEndAfter (pipe (pipe (pipe (range Option Integer.unbounded lo hi st)
          (mapB (lift1 Option g) a)) (filterB fuel (lift1 Option p) b)) (takeB n))
        (min n (((Range.upList lo hi st).map g).filter p).length) = some true ∧
      ∀ j, j < min n (((Range.upList lo hi st).map g).filter p).length →
        atEndAfter (pipe (pipe (pipe (range Option Integer.unbounded lo hi st)
          (mapB (lift1 Option g) a)) (filterB fuel (lift1 Option p) b)) (takeB n)) j
          = some false) ∧
    (st < 0 → (Range.downList lo hi st).length < fuel →
      min n (((Range.downList lo hi st).map g).filter p).length < k →
      traverse k (pipe (pipe (pipe (range Option Integer.unbounded lo hi st)
          (mapB (lift1 Option g) a)) (filterB fuel (lift1 Option p) b)) (takeB n)) =
        some ((((Range.downList lo hi st).map g).filter p).take n) ∧
      atEndAfter (pipe (pipe (pipe (range Option Integer.unbounded lo hi st)
          (mapB (lift1 Option g) a)) (filterB fuel (lift1 Option p) b)) (takeB n))
        (min n (((Range.downList lo hi st).map g).filter p).length) = some true ∧
      ∀ j, j < min n (((Range.downList lo hi st).map g).filter p).length →
        atEndAfter (pipe (pipe (pipe (range Option Integer.unbounded lo hi st)
          (mapB (lift1 Option g) a)) (filterB fuel (lift1 Option p) b)) (takeB n)) j
          = some false) := by
  refine ⟨fun h1 h2 => ?_, fun hst h1 h2 => ?_, fun hst h1 h2 => ?_⟩
  · exact pipeline_of_lawful (containerView_lawful S) f p a b fuel n k h1 hn h2
  · exact pipeline_of_lawful
      (lawful_congr (range_lawful_up lo hi st hst) (range_seqUp_ofList lo hi st hst))
      g p a b fuel n k h1 hn h2
  · exact pipeline_of_lawful
      (lawful_congr (range_lawful_down lo hi st hst) (range_seqDown_ofList lo hi st hst))
      g p a b fuel n k h1 hn h2

theorem pipeline_traverse_witness :
    (3 : Nat) < sizeModulus ∧
      traverse 4 (pipe (pipe (pipe (range Option Integer.unbounded 0 10 1)
          (mapB (lift1 Option (fun x => x + 10)) 0))
          (filterB 11 (lift1 Option (fun x => x % 2 == 0)) 1)) (takeB 3)) =
        some [10, 12, 14] ∧
      traverse 4 (pipe (pipe (pipe ([0, 1, 2, 3] : List Int)
          (mapB (lift1 Option (fun x => x + 10)) 0))
          (filterB 11 (lift1 Option (fun x => x % 2 == 1)) 1)) (takeB 3)) =
        some [11, 13] :=
  by
  have h1 := ((pipeline_traverse ([] : List Int) (fun x => x + 10) (fun x => x % 2 == 0) 0 10 1
      (fun x => x + 10) 0 1 11 3 4 (by decide)).2.1 (by decide) (by decide) (by decide)).1
  have h2 := ((pipeline_traverse ([0, 1, 2, 3] : List Int) (fun x => x + 10) (fun x => x % 2 == 1) 0 10 1
      (fun x => x + 10) 0 1 11 3 4 (by decide)).1 (by decide) (by decide)).1
  refine ⟨by decide, ?_, ?_⟩
  · rw [h1]; decide
  · rw [h2]; decide

/-- C13, as amended: the pipeline `[1,2,3,4,5] | filter(even) | map(x => x + 42)`
produces the sequence `[44, 46]`, whatever the addresses of the stored callables and
with any fuel above the five elements. -/
theorem filter_map_scenario (a b fuel k : Nat) (hfuel : 5 < fuel) (hk : 2 < k) :
    traverse k (pipe (pipe ([1, 2, 3, 4, 5] : List Int)
        (filterB fuel (lift1 Option (fun x => x % 2 == 0)) a))
        (mapB (lift1 Option (fun x => x + 42)) b)) = some [44, 46] := by
  obtain ⟨_, h⟩ := filter_map_lawful (containerView_lawful ([1, 2, 3, 4, 5] : List Int))
    (fun x => x % 2 == 0) (fun x => x + 42) a b fuel hfuel
  exact (lawful_list h _ rfl k hk).1

theorem filter_map_scenario_witness :
    5 < 6 ∧ 2 < 3 ∧
      traverse 3 (pipe (pipe ([1, 2, 3, 4, 5] : List Int)
        (filterB 6 (lift1 Option (fun x => x % 2 == 0)) 0))
        (mapB (lift1 Option (fun x => x + 42)) 1)) = some [44, 46] :=
  ⟨by decide, by decide, filter_map_scenario 0 1 6 3 (by decide) (by decide)⟩

/-- C13, as stated, fails: the traversal of `[1,2,3,4,5] | filter(even) | map(x => x + 42)`
is `[44, 46]` and not `[44, 48]`. -/
theorem filter_map_scenario_counterexample :
    traverse 3 (pipe (pipe ([1, 2, 3, 4, 5] : List Int)
        (filterB 6 (lift1 Option (fun x => x % 2 == 0)) 0))
        (mapB (lift1 Option (fun x => x + 42)) 1)) = some [44, 46] ∧
      traverse 3 (pipe (pipe ([1, 2, 3, 4, 5] : List Int)
        (filterB 6 (lift1 Option (fun x => x % 2 == 0)) 0))
        (mapB (lift1 Option (fun x => x + 42)) 1)) ≠ some [44, 48] := by
  constructor
  · decide
  · decide

/-- C15: for every `n` and every source view `S` with no elements, that is
`S.begin() == S.end()` (and `S.begin()` equal to itself, as in every view of the
library), `take(S, n).begin() == take(S, n).end()`; in particular for a filter that
rejects every element of a container `L`, also a non-empty one, and `n ≥ 1`. -/
theorem take_empty_source {T : Type} [HasView Option T ι α] (S : T) (n : Nat) (b e : ι)
    (hb : (view S : View Option ι α).begin = some b)
    (he : (view S : View Option ι α).end_ = some e)
    (hr : (view S : View Option ι α).eq b b = true)
    (hempty : (view S : View Option ι α).eq b e = true)
    (L : List β) (p : β → Bool) (addr fuel : Nat) (hfuel : L.length < fuel)
    (hn : n < sizeModulus) (hrej : ∀ x, x ∈ L → p x = false) :
    atEndAfter (take Option S n) 0 = some true ∧
      atEndAfter (take Option (filter fuel L (lift1 Option p) addr) n) 0 = some true := by
  constructor
  · by_cases h0 : n = 0
    · simp [atEndAfter, advance, take, Take, Take.Iterator.eq, hb, he, hr, h0]
    · simp [atEndAfter, advance, take, Take, Take.Iterator.eq, hb, he, hempty, h0]
  · have hnil : L.filter p = [] := by
      rw [List.filter_eq_nil_iff]
      intro x hx
      simp [hrej x hx]
    have h := (lawful_list
      (lawful_congr (take_lawful (filter_lawful (containerView_lawful L) p addr fuel hfuel) n hn)
        (take_seq_ofList _ n)) _ rfl 1 (by simp [hnil])).2.1
    simpa [hnil] using h

theorem take_empty_source_witness :
    atEndAfter (take Option ([] : List Nat) 3) 0 = some true ∧
      atEndAfter (take Option (filter 4 [1, 3, 5] (lift1 Option (fun x => x % 2 == 0)) 0) 3) 0
        = some true :=
  take_empty_source ([] : List Nat) 3 0 0 rfl rfl rfl rfl [1, 3, 5] (fun x => x % 2 == 0) 0 4
    (by decide) (by decide) (by decide)

/-- C17: after `j` increments from `infiniteSequence(from, step).begin()`, dereference
yields `from + j * step` over unbounded integers, for every `j` and every step
(positive, negative or zero), and `begin()` itself yields `from`; for any integer type
it yields `from` with `step` added `j` times in that type. -/
theorem infiniteSequence_deref (I : Integer) (from_ step : Int) (j : Nat) :
    derefAfter (infiniteSequence Option Integer.unbounded from_ step) j
        = some (from_ + (j : Int) * step) ∧
      derefAfter (infiniteSequence Option Integer.unbounded from_ step) 0 = some from_ ∧
      derefAfter (infiniteSequence Option I from_ step) j
        = some (InfiniteSequence.value I from_ step j) := by
  have key : ∀ (I : Integer) (j : Nat), derefAfter (infiniteSequence Option I from_ step) j
      = some (InfiniteSequence.value I from_ step j) := by
    intro I j
    obtain ⟨b, hb, hpb⟩ := (infiniteSequence_lawful I from_ step).begin_pos
    obtain ⟨it, ha, hp⟩ := advance_of_lawful (infiniteSequence_lawful I from_ step) j 0 b hpb
      (by intro i _; simp [InfiniteSequence.seq])
    simp only [Nat.zero_add] at hp
    obtain ⟨it', hd, _⟩ := (infiniteSequence_lawful I from_ step).deref_pos j it _ hp rfl
    simp only [infiniteSequence] at *
    simp [derefAfter, hb, ha, hd]
  refine ⟨?_, ?_, key I j⟩
  · rw [key, infiniteSequence_value_unbounded]
  · rw [key]; rfl

/-- C18: for every integer type and all `from`, `step`, no iterator reached from
`infiniteSequence(from, step).begin()` by `k ≥ 0` increments compares equal to `end()`:
the flag is `false` in `begin()`, `true` in `end()` and not changed by `operator++`,
also when the value is back at `from` (step zero). -/
theorem infiniteSequence_never_end (I : Integer) (from_ step : Int) (k : Nat) :
    atEndAfter (infiniteSequence Option I from_ step) k = some false ∧
      (infiniteSequence Option I from_ step).begin = some ⟨from_, step, false⟩ ∧
      (infiniteSequence Option I from_ step).end_ = some ⟨from_, step, true⟩ ∧
      (∀ it, (InfiniteSequence.Iterator.incr I it).inf = it.inf) ∧
      derefAfter (infiniteSequence Option Integer.unbounded from_ 0) k = some from_ ∧
      atEndAfter (infiniteSequence Option Integer.unbounded from_ 0) k = some false := by
  have key : ∀ (I : Integer) (st : Int), atEndAfter (infiniteSequence Option I from_ st) k
      = some false := by
    intro I st
    have := atEndAfter_of_lawful (infiniteSequence_lawful I from_ st) k
      (by intro i _; simp [InfiniteSequence.seq])
    simpa [infiniteSequence, InfiniteSequence.seq] using this
  refine ⟨key I step, rfl, rfl, fun _ => rfl, ?_, key _ 0⟩
  have h := infiniteSequence_value_unbounded from_ 0 k
  obtain ⟨b, hb, hpb⟩ := (infiniteSequence_lawful Integer.unbounded from_ 0).begin_pos
  obtain ⟨it, ha, hp⟩ := advance_of_lawful (infiniteSequence_lawful Integer.unbounded from_ 0)
    k 0 b hpb (by intro i _; simp [InfiniteSequence.seq])
  simp only [Nat.zero_add] at hp
  obtain ⟨it', hd, _⟩ :=
    (infiniteSequence_lawful Integer.unbounded from_ 0).deref_pos k it _ hp rfl
  simp only [infiniteSequence] at *
  simp [derefAfter, hb, ha, hd, h]

/-- C19: two `Map` iterators compare equal exactly when their source iterators compare
equal and their callable addresses are the same; the stored value plays no part (an
iterator that was dereferenced equals its copy that was not); and iterators of two
`Map` stages whose callables live at different addresses are never equal, also at the
same source position and with the same function. -/
theorem map_iterator_eq {m : Type → Type} [Monad m] [MonadStuck m] {ι α β : Type}
    (v : View m ι α) (f f' : α → m β) (a a' : Nat) (x y : Map.Iterator ι β)
    (w w' : Option β) (S : List α) (g : α → β) :
    ((Map v f a).eq x y = true ↔ (v.eq x.it y.it = true ∧ x.functor = y.functor)) ∧
      (Map v f a).eq { x with value := w } { y with value := w' } = (Map v f a).eq x y ∧
      (∀ it r, (map S (lift1 Option g) a).deref it = some r →
        (map S (lift1 Option g) a).eq r.2 it = true ∧
        (map S (lift1 Option g) a).eq it r.2 = true) ∧
      (a ≠ a' → x.functor = a → y.functor = a' →
        (Map v f a).eq x y = false ∧ (Map v f' a').eq x y = false) ∧
      (a ≠ a' → ∀ b b', (map S (lift1 Option g) a).begin = some b →
        (map S (lift1 Option g) a').begin = some b' →
        b.it = b'.it ∧ (map S (lift1 Option g) a).eq b b' = false) := by
  refine ⟨?_, rfl, ?_, ?_, ?_⟩
  · simp [Map, Map.Iterator.eq]
  · intro it r hr
    have hit : r.2.it = it.it ∧ r.2.functor = it.functor := by
      cases hv : it.value with
      | some u =>
        simp only [map, Map, Map.Iterator.deref, hv] at hr
        have := Option.some.inj hr
        subst this
        exact ⟨rfl, rfl⟩
      | none =>
        simp only [map, Map, Map.Iterator.deref, hv, view, ContainerView] at hr
        cases hs : S[it.it]? with
        | none => simp [hs, MonadStuck.stuck] at hr
        | some u =>
          simp [hs, lift1] at hr
          subst hr
          exact ⟨rfl, rfl⟩
    simp [map, Map, Map.Iterator.eq, view, ContainerView, hit.1, hit.2]
  · intro hne hx hy
    have h1 : x.functor ≠ y.functor := by rw [hx, hy]; exact hne
    simp [Map, Map.Iterator.eq, h1]
  · intro hne b b' hb hb'
    simp only [map, Map, view, ContainerView] at hb hb'
    have e1 := Option.some.inj hb
    have e2 := Option.some.inj hb'
    subst e1 e2
    refine ⟨rfl, ?_⟩
    simp [map, Map, Map.Iterator.eq, hne]

theorem map_iterator_eq_witness :
    (map [1, 2, 3] (lift1 Option (fun x => x + 1)) 7).eq ⟨0, 7, none⟩ ⟨0, 8, none⟩ = false ∧
      (map [1, 2, 3] (lift1 Option (fun x => x + 1)) 7).eq ⟨0, 7, some 2⟩ ⟨0, 7, none⟩ = true :=
  ⟨((map_iterator_eq (ContainerView Option [1, 2, 3]) (lift1 Option (fun x => x + 1))
      (lift1 Option (fun x => x + 1)) 7 8 ⟨0, 7, none⟩ ⟨0, 8, none⟩ none none [1, 2, 3]
      (fun x => x + 1)).2.2.2.1 (by decide) rfl rfl).1,
    ((map_iterator_eq (ContainerView Option [1, 2, 3]) (lift1 Option (fun x => x + 1))
      (lift1 Option (fun x => x + 1)) 7 8 ⟨0, 7, some 2⟩ ⟨0, 7, none⟩ none none [1, 2, 3]
      (fun x => x + 1)).1).2 ⟨rfl, rfl⟩⟩

/-- C16: `Map` memoization, observed with a callable that records its invocations.
At a position holding `x` the first dereference invokes `f` once and stores `f x`;
with a stored value a dereference returns it and is `pure`, whatever the source view
and the callable, so `k` further dereferences invoke nothing; `operator++` clears the
stored value and invokes nothing.  Hence a traversal of `map(S, f)` with one iterator
that dereferences `reps j` times at position `j` reads `f(S[j])` each time and invokes
`f` once per position dereferenced at all, at most `len(S)` times. -/
theorem map_memoization {m : Type → Type} [Monad m] [MonadStuck m] {ι α β : Type}
    (v : View m ι α) (g : α → m β) (it : Map.Iterator ι β) (w : β) (S : List α) (f : α → β)
    (a i k fuel : Nat) (x : α) (reps : Nat → Nat) (tr : List Event)
    (hw : it.value = some w) (hx : S[i]? = some x) (hfuel : S.length < fuel) :
    ((map S (traced1 a f) a).deref ⟨i, a, none⟩).run tr
        = some ((f x, ⟨i, a, some (f x)⟩), tr ++ [Event.call a]) ∧
      (Map v g a).deref it = pure (w, it) ∧
      (derefTimes (map S (traced1 a f) a) k ⟨i, a, some (f x)⟩).run tr
        = some ((List.replicate k (f x), ⟨i, a, some (f x)⟩), tr) ∧
      ((map S (traced1 a f) a).incr ⟨i, a, some (f x)⟩).run tr = some (⟨i + 1, a, none⟩, tr) ∧
      (traverseRepeating fuel reps (map S (traced1 a f) a)).run tr
        = some (repeatedValues f reps 0 S,
            tr ++ List.replicate (dereferenced reps 0 S) (Event.call a)) ∧
      dereferenced reps 0 S ≤ S.length := by
  have hi : i < S.length := by
    by_contra hge
    rw [List.getElem?_eq_none (by omega)] at hx
    cases hx
  refine ⟨map_deref_fresh S f a i x hx tr, map_deref_cached v g a it w hw,
    map_derefTimes_cached (view S) (traced1 a f) a ⟨i, a, some (f x)⟩ (f x) rfl tr k,
    map_incr_container S f a i (some (f x)) hi tr, ?_, dereferenced_le reps S 0⟩
  have h := map_traverseRepeat S f a reps S 0 fuel tr rfl (Nat.zero_le _) hfuel
  simp only [traverseRepeating, StateT.run_bind]
  simpa [map, Map, view, ContainerView] using h

theorem map_memoization_witness :
    (traverseRepeating 4 (fun j => 2 * j) (map [1, 2, 3] (traced1 7 (fun x => x + 1)) 7)).run []
        = some ([[], [3, 3], [4, 4, 4, 4]], [Event.call 7, Event.call 7]) := by
  have h := (map_memoization (ContainerView Option [1, 2, 3]) (lift1 Option (fun x => x + 1))
    ⟨0, 7, some 2⟩ 2 [1, 2, 3] (fun x => x + 1) 7 0 1 4 1 (fun j => 2 * j) [] rfl rfl
    (by decide)).2.2.2.2.1
  rw [h]
  rfl

/-- C20: constructing a stage is free of effects.  A call of `map(S, f)`,
`filter(S, p)`, `zipWith(A, B, f)` or `take(S, n)`, run with any source views and any
callables (also ones that record what is done with them, and ones whose every operation
is stuck), returns the stage and adds to the trace only the copies and moves of the
objects it stores: no invocation of a callable and no `begin()`, `end()`, `operator++`
or `operator*` of a source; over a container nothing is copied but the callable.
`begin()`, `end()` and `operator++` of `Map`, and `end()` of `Filter`, do not depend on
the callable (they do not invoke it): `begin()` of `Map` records only the source's
`begin()`.  The first invocations come with `Filter::begin`, which tests the elements
up to the first match (its leading skip), and with a dereference, which performs the
source's `operator*` and one invocation. -/
theorem construction_no_effect (S : List α) (f : α → γ) (p : α → Bool)
    (a n fuel i : Nat) (x : α) (tr : List Event) (v : View Traced ι α) (u : View Traced κ β)
    (g g' : α → Traced γ) (q q' : α → Traced Bool) (h : α → β → Traced γ)
    (hfuel : S.length < fuel) (hx : S[i]? = some x) :
    (mapCall v g a).run tr = some (map v g a,
        tr ++ [Event.copy, Event.move, Event.copy, Event.move, Event.move]) ∧
      (filterCall fuel v q a).run tr = some (filter fuel v q a,
        tr ++ [Event.copy, Event.move, Event.copy, Event.move, Event.move]) ∧
      (zipWithCall v u h a).run tr = some (zipWith v u h a,
        tr ++ [Event.copy, Event.move, Event.copy, Event.move, Event.copy, Event.move,
          Event.move, Event.move]) ∧
      (takeCall v n).run tr = some (take Traced v n, tr ++ [Event.copy, Event.move, Event.move]) ∧
      (mapCall S g a).run tr = some (map S g a, tr ++ [Event.copy, Event.move, Event.move]) ∧
      (filterCall fuel S q a).run tr
        = some (filter fuel S q a, tr ++ [Event.copy, Event.move, Event.move]) ∧
      (takeCall S n).run tr = some (take Traced S n, tr ++ [Event.move]) ∧
      ((Map v g a).begin = (Map v g' a).begin ∧ (Map v g a).end_ = (Map v g' a).end_ ∧
        (Map v g a).incr = (Map v g' a).incr ∧
        (Filter fuel v q a).end_ = (Filter fuel v q' a).end_) ∧
      ((map (tracedView (ContainerView Traced S)) (traced1 a f) a).begin).run tr
        = some (⟨0, a, none⟩, tr ++ [Event.srcBegin]) ∧
      ((map (tracedView (ContainerView Traced S)) (traced1 a f) a).deref ⟨i, a, none⟩).run tr
        = some ((f x, ⟨i, a, some (f x)⟩), tr ++ [Event.srcDeref, Event.call a]) ∧
      ((filter fuel S (traced1 a p) a).begin).run tr
        = some (⟨a, (S.takeWhile (fun x => !p x)).length, S.length⟩,
            tr ++ List.replicate (leadingCalls p S) (Event.call a)) ∧
      ((filter fuel S (traced1 a p) a).end_).run tr = some (⟨a, S.length, S.length⟩, tr) := by
  refine ⟨?_, ?_, ?_, ?_, ?_, ?_, ?_, ⟨rfl, rfl, rfl, rfl⟩, ?_, ?_,
    filter_begin_trace S p a fuel tr hfuel, ?_⟩
  · simp [mapCall, viewCall, copied, moved, emit, detail.Map.ctor, map, view]
  · simp [filterCall, viewCall, copied, moved, emit, detail.Filter.ctor, filter, view]
  · simp [zipWithCall, viewCall, copied, moved, emit, detail.ZipWith.ctor, zipWith, view]
  · simp [takeCall, viewCall, copied, moved, emit, detail.Take.ctor, take, view]
  · simp [mapCall, viewCall, copied, moved, emit, detail.Map.ctor, map, view]
  · simp [filterCall, viewCall, copied, moved, emit, detail.Filter.ctor, filter, view]
  · simp [takeCall, viewCall, copied, moved, emit, detail.Take.ctor, take, view]
  · simp [map, Map, view, tracedView, ContainerView, emit]
  · simp [map, Map, Map.Iterator.deref, view, tracedView, ContainerView, emit, traced1, hx]
  · simp [filter, detail.Filter, view, ContainerView]

theorem construction_no_effect_witness :
    ([1, 3, 4, 5] : List Nat).length < 5 ∧ ([1, 3, 4, 5] : List Nat)[0]? = some 1 ∧
      ((mapCall (tracedView (ContainerView Traced [1, 3, 4, 5])) (traced1 7 (fun x => x + 1))
          7).run []).map (fun r => r.2)
        = some [Event.copy, Event.move, Event.copy, Event.move, Event.move] ∧
      ((filterCall 5 (tracedView (ContainerView Traced [1, 3, 4, 5]))
          (fun _ => (MonadStuck.stuck : Traced Bool)) 7).run []).map (fun r => r.2)
        = some [Event.copy, Event.move, Event.copy, Event.move, Event.move] := by
  have h := construction_no_effect [1, 3, 4, 5] (fun x => x + 1) (fun x => x % 2 == 0)
    7 0 5 0 1 [] (tracedView (ContainerView Traced [1, 3, 4, 5]))
    (ContainerView Traced ([] : List Nat))
    (traced1 7 (fun x => x + 1)) (traced1 7 (fun x => x + 2))
    (fun _ => (MonadStuck.stuck : Traced Bool)) (traced1 7 (fun _ => true))
    (traced2 7 (fun x y => x + y)) (by decide) rfl
  refine ⟨by decide, rfl, ?_, ?_⟩
  · rw [h.1]; rfl
  · rw [h.2.1]; rfl

/-- C21, as amended: for a `Range` whose step is zero, `operator++` leaves the current
value unchanged when it is not below `to` (so `range(from, to, 0)` with `from ≥ to`
never advances), in any integer type that holds `from` and `to`; when the current value
is below `to`, `operator++` sets it to `to`, which is `end()`. -/
theorem range_zero_step (I : Integer) (from_ to_ : Int) (k : Nat) :
    (I.wrap from_ = from_ → I.wrap to_ = to_ → to_ ≤ from_ →
        (Range.Iterator.incr I ⟨from_, to_, 0⟩).from_ = from_) ∧
      (to_ ≤ from_ → derefAfter (range Option Integer.unbounded from_ to_ 0) k = some from_) ∧
      (I.wrap to_ = to_ → from_ < to_ →
        (Range.Iterator.incr I ⟨from_, to_, 0⟩).from_ = to_) ∧
      (from_ < to_ →
        derefAfter (range Option Integer.unbounded from_ to_ 0) 1 = some to_ ∧
        atEndAfter (range Option Integer.unbounded from_ to_ 0) 1 = some true) := by
  refine ⟨?_, ?_, ?_, ?_⟩
  · intro hf ht hle
    have ha : I.arith to_ = to_ := by simp [Integer.arith, ht]
    simp only [Range.Iterator.incr, Int.sub_zero, Int.add_zero, ha, hf]
    by_cases h : to_ < from_
    · simp [h]
    · have : from_ = to_ := by omega
      simp [this]
  · intro hle
    have hb : (range Option Integer.unbounded from_ to_ 0).begin = some ⟨from_, to_, 0⟩ := by
      simp [range, Range]
    have hstay : Range.Iterator.incr Integer.unbounded ⟨from_, to_, 0⟩ = ⟨from_, to_, 0⟩ := by
      simp only [Range.Iterator.incr, Integer.arith, Integer.unbounded, Int.sub_zero,
        Int.add_zero]
      by_cases h : to_ < from_
      · simp [h]
      · have : from_ = to_ := by omega
        simp [this]
    have hadv : ∀ k, advance (range Option Integer.unbounded from_ to_ 0) k ⟨from_, to_, 0⟩
        = some ⟨from_, to_, 0⟩ := by
      intro k
      induction k with
      | zero => rfl
      | succ k ih =>
        have hi : (range Option Integer.unbounded from_ to_ 0).incr ⟨from_, to_, 0⟩
            = some ⟨from_, to_, 0⟩ := by
          show some (Range.Iterator.incr Integer.unbounded ⟨from_, to_, 0⟩) = _
          rw [hstay]
        rw [advance, hi]
        simpa using ih
    have hd : (range Option Integer.unbounded from_ to_ 0).deref ⟨from_, to_, 0⟩
        = some (from_, ⟨from_, to_, 0⟩) := rfl
    simp [derefAfter, hb, hadv k, hd]
  · intro ht hlt
    have h : ¬ to_ < from_ := by omega
    have ha : I.arith to_ = to_ := by simp [Integer.arith, ht]
    simp [Range.Iterator.incr, ha, h]
  · intro hlt
    have hb : (range Option Integer.unbounded from_ to_ 0).begin = some ⟨from_, to_, 0⟩ := by
      simp [range, Range]
    have hjump : Range.Iterator.incr Integer.unbounded ⟨from_, to_, 0⟩ = ⟨to_, to_, 0⟩ := by
      have h : ¬ to_ < from_ := by omega
      simp [Range.Iterator.incr, Integer.arith, Integer.unbounded, h]
    have hi : (range Option Integer.unbounded from_ to_ 0).incr ⟨from_, to_, 0⟩
        = some ⟨to_, to_, 0⟩ := by
      show some (Range.Iterator.incr Integer.unbounded ⟨from_, to_, 0⟩) = _
      rw [hjump]
    have hd : (range Option Integer.unbounded from_ to_ 0).deref ⟨to_, to_, 0⟩
        = some (to_, ⟨to_, to_, 0⟩) := rfl
    have he : (range Option Integer.unbounded from_ to_ 0).end_ = some ⟨to_, to_, 0⟩ := rfl
    constructor
    · simp [derefAfter, advance, hb, hi, hd]
    · simp only [atEndAfter, advance, hb, hi, he, Option.bind_eq_bind, Option.some_bind,
        Option.pure_def]
      simp [range, Range, Range.Iterator.eq]

theorem range_zero_step_witness :
    derefAfter (range Option Integer.unbounded 4 0 0) 7 = some 4 ∧
      derefAfter (range Option Integer.unbounded 0 4 0) 1 = some 4 :=
  ⟨(range_zero_step Integer.unbounded 4 0 7).2.1 (by decide),
    ((range_zero_step Integer.unbounded 0 4 7).2.2.2 (by decide)).1⟩

/-- C21, as stated, fails: the iterator of `range(0, 4, 0)` holds `0` at `begin()` and
`4` after one increment. -/
theorem range_zero_step_counterexample :
    derefAfter (range Option Integer.unbounded 0 4 0) 0 = some 0 ∧
      derefAfter (range Option Integer.unbounded 0 4 0) 1 = some 4 ∧
      (Range.Iterator.incr Integer.unbounded ⟨0, 4, 0⟩).from_ ≠ 0 := by
  refine ⟨rfl, rfl, ?_⟩
  decide

/-- C22: the code at the failing inputs.  With `Integer = unsigned` (32 bits, so that
`_to - _step` is computed in the type itself, with no promotion to `int`),
`range(0, 3, 5)` holds `5`, above `to = 3`, after one increment, because `to - step`
wraps to `4294967294`, and goes on to `10`.  And `range(0, 1, 2)` never reaches `end()`:
its value stays even. -/
theorem range_unsigned_overshoot :
    derefAfter (range Option (Integer.unsigned 32) 0 3 5) 1 = some 5 ∧
      (Integer.unsigned 32).wrap (3 - 5) = 4294967294 ∧
      atEndAfter (range Option (Integer.unsigned 32) 0 3 5) 1 = some false ∧
      derefAfter (range Option (Integer.unsigned 32) 0 3 5) 2 = some 10 ∧
      (∀ k, atEndAfter (range Option (Integer.unsigned 32) 0 1 2) k = some false) := by
  refine ⟨by decide, by decide, by decide, by decide, ?_⟩
  have hstep : ∀ x : Int, 0 ≤ x → x < 4294967296 → x % 2 = 0 →
      Range.Iterator.incr (Integer.unsigned 32) ⟨x, 1, 2⟩ = ⟨(x + 2) % 4294967296, 1, 2⟩ := by
    intro x h0 h1 h2
    have hw : (Integer.unsigned 32).arith (1 - 2) = 4294967295 := by decide
    have hlt : x < 4294967295 := by omega
    simp only [Range.Iterator.incr, hw]
    simp [hlt, Integer.unsigned]
  have hadv : ∀ k (x : Int), 0 ≤ x → x < 4294967296 → x % 2 = 0 →
      ∃ y, advance (range Option (Integer.unsigned 32) 0 1 2) k ⟨x, 1, 2⟩ = some ⟨y, 1, 2⟩ ∧
        y % 2 = 0 := by
    intro k
    induction k with
    | zero => intro x _ _ h2; exact ⟨x, rfl, h2⟩
    | succ k ih =>
      intro x h0 h1 h2
      have hi : (range Option (Integer.unsigned 32) 0 1 2).incr ⟨x, 1, 2⟩
          = some ⟨(x + 2) % 4294967296, 1, 2⟩ := by
        show some (Range.Iterator.incr (Integer.unsigned 32) ⟨x, 1, 2⟩) = _
        rw [hstep x h0 h1 h2]
      obtain ⟨y, hy, hy2⟩ := ih ((x + 2) % 4294967296) (by omega) (by omega) (by omega)
      exact ⟨y, by rw [advance, hi]; simpa using hy, hy2⟩
  intro k
  obtain ⟨y, hy, hy2⟩ := hadv k 0 (by decide) (by decide) (by decide)
  have hb : (range Option (Integer.unsigned 32) 0 1 2).begin = some ⟨0, 1, 2⟩ := by decide
  have he : (range Option (Integer.unsigned 32) 0 1 2).end_ = some ⟨1, 1, 2⟩ := rfl
  have hne : ¬ y = 1 := by omega
  simp only [atEndAfter, hb, hy, he, Option.bind_eq_bind, Option.some_bind, Option.pure_def]
  simp [range, Range, Range.Iterator.eq, hne]

/-- C25, as amended: `Take::end()` for any source view with `begin() = b` and
`end() = e`: if `n == 0` it is the iterator `begin()` returns, `(b, 0, e)`; otherwise,
if the source is empty (`b == e`), it is the source's end with the counter still `n`,
`(e, n, e)`, which equals `begin()`; and in every other case it is the source's end
with counter `0`, `(e, 0, e)`. -/
theorem take_end_cases (v : View Option ι α) (n : Nat) (b e : ι)
    (hb : v.begin = some b) (he : v.end_ = some e) :
    (n = 0 → (Take v n).end_ = some ⟨b, 0, e⟩ ∧ (Take v n).begin = (Take v n).end_) ∧
      (n ≠ 0 → v.eq b e = true → (Take v n).end_ = some ⟨e, n, e⟩ ∧
        (Take v n).eq ⟨b, n, e⟩ ⟨e, n, e⟩ = true) ∧
      (n ≠ 0 → v.eq b e = false → (Take v n).end_ = some ⟨e, 0, e⟩) := by
  refine ⟨?_, ?_, ?_⟩
  · rintro rfl
    simp [Take, hb, he]
  · intro h0 hq
    simp [Take, Take.Iterator.eq, hb, he, h0, hq]
  · intro h0 hq
    simp [Take, hb, he, h0, hq]

theorem take_end_cases_witness :
    (take Option ([] : List Nat) 3).end_ = some ⟨0, 3, 0⟩ ∧
      (take Option [1, 2] 3).end_ = some ⟨2, 0, 2⟩ ∧
      (take Option [1, 2] 0).end_ = some ⟨0, 0, 2⟩ :=
  ⟨((take_end_cases (ContainerView Option ([] : List Nat)) 3 0 0 rfl rfl).2.1 (by decide) rfl).1,
    (take_end_cases (ContainerView Option [1, 2]) 3 0 2 rfl rfl).2.2 (by decide) rfl,
    ((take_end_cases (ContainerView Option [1, 2]) 0 0 2 rfl rfl).1 rfl).1⟩

/-- C25, as stated, fails: over the empty container with `n = 3`, `end()` is the
source's end with remaining counter `3`, not `0`. -/
theorem take_end_cases_counterexample :
    ((take Option ([] : List Nat) 3).end_).map (fun t => t.n) = some 3 ∧
      ((take Option ([] : List Nat) 3).end_).map (fun t => t.n) ≠ some 0 := by
  constructor
  · rfl
  · decide

/-- C23: `ZipWith` canonical terminal state, over containers `A`, `B`.  The iterator
after `k ≤ min(len A, len B)` increments from `begin()` has cursor `A` at `A`'s end
exactly when cursor `B` is at `B`'s end: both cursors are at index `k` before the
minimum and both at their ends at the minimum (further increments are increments of a
container's end iterator, which are undefined).  For any two source views, an
increment after which either cursor equals its end sets both cursors to their ends.
With a one-element and a two-element operand, in either order, one increment from
`begin()` gives `end()`. -/
theorem zipWith_terminal (A : List α) (B : List β) (f : α → β → γ) (addr k : Nat)
    (iA : View Option ι α) (iB : View Option κ β) (g : α → β → Option γ)
    (t : ZipWith.Iterator ι κ γ) (ca : ι) (cb : κ) (a : α) (b1 b2 : β) :
    (k ≤ min A.length B.length →
      ∃ it, stateAfter (zipWith A B (lift2 Option f) addr) k = some it ∧
        (it.itA = A.length ↔ it.itB = B.length) ∧
        (k < min A.length B.length → it.itA = k ∧ it.itB = k) ∧
        (k = min A.length B.length → it.itA = A.length ∧ it.itB = B.length)) ∧
      (min A.length B.length < k →
        stateAfter (zipWith A B (lift2 Option f) addr) k = none) ∧
      (iA.incr t.itA = some ca → iB.incr t.itB = some cb →
        iA.eq ca t.endA = true ∨ iB.eq cb t.endB = true →
        (ZipWith iA iB g addr).incr t
          = some { t with itA := t.endA, itB := t.endB, value := none }) ∧
      atEndAfter (zipWith [a] [b1, b2] (lift2 Option f) addr) 1 = some true ∧
      atEndAfter (zipWith [b1, b2] [a] (lift2 Option (fun y x => f x y)) addr) 1 = some true := by
  have hlaw := lawful_congr
    (zipWith_lawful (containerView_lawful A) (containerView_lawful B) f addr)
    (zipWith_seq_ofList A B f)
  have hlen : (List.zipWith f A B).length = min A.length B.length := List.length_zipWith f A B
  have hreach : ∀ k, k ≤ min A.length B.length →
      ∃ it, stateAfter (zipWith A B (lift2 Option f) addr) k = some it ∧
        (it.itA = A.length ↔ it.itB = B.length) ∧
        (k < min A.length B.length → it.itA = k ∧ it.itB = k) ∧
        (k = min A.length B.length → it.itA = A.length ∧ it.itB = B.length) := by
    intro k hk
    obtain ⟨it, hit, hpos⟩ := stateAfter_of_lawful hlaw k
      (fun i hi => ofList_ne_none (by rw [hlen]; omega))
    refine ⟨it, hit, ?_⟩
    obtain ⟨hA, hB, _, hc⟩ := hpos
    have hA' : it.endA = A.length := (Option.some.inj hA).symm
    have hB' : it.endB = B.length := (Option.some.inj hB).symm
    by_cases hlt : k < min A.length B.length
    · have hsome : (ZipWith.seq (ofList A) (ofList B) f k).isSome = true := by
        rw [zipWith_seq_ofList]
        exact Option.isSome_iff_ne_none.2 (ofList_ne_none (by rw [hlen]; exact hlt))
      rw [if_pos hsome] at hc
      obtain ⟨⟨h1, _⟩, ⟨h2, _⟩, _⟩ := hc
      refine ⟨?_, fun _ => ⟨h1, h2⟩, fun h => by omega⟩
      constructor <;> intro h <;> omega
    · have hnone : ¬ (ZipWith.seq (ofList A) (ofList B) f k).isSome = true := by
        rw [zipWith_seq_ofList]
        simp only [ofList, Option.isSome_iff_ne_none, ne_eq, not_not]
        exact List.getElem?_eq_none (by rw [hlen]; omega)
      rw [if_neg hnone] at hc
      obtain ⟨h1, h2⟩ := hc
      have e1 : it.itA = A.length := by
        rw [hA'] at h1; simpa [ContainerView] using h1
      have e2 : it.itB = B.length := by
        rw [hB'] at h2; simpa [ContainerView] using h2
      exact ⟨⟨fun _ => e2, fun _ => e1⟩, fun h => absurd h hlt, fun _ => ⟨e1, e2⟩⟩
  refine ⟨hreach k, ?_, ?_, ?_, ?_⟩
  · intro hk
    obtain ⟨it, hit, _, _, hend⟩ := hreach (min A.length B.length) (Nat.le_refl _)
    obtain ⟨e1, e2⟩ := hend rfl
    refine stateAfter_none _ _ it hit ?_ k hk
    simp [zipWith, ZipWith, ZipWith.Iterator.incr, view, ContainerView, e1, MonadStuck.stuck]
  · intro h1 h2 h3
    rcases h3 with h | h
    · simp [ZipWith, ZipWith.Iterator.incr, h1, h2, h]
    · cases hq : iA.eq ca t.endA <;> simp [ZipWith, ZipWith.Iterator.incr, h1, h2, h, hq]
  · have := (lawful_list (lawful_congr
      (zipWith_lawful (containerView_lawful [a]) (containerView_lawful [b1, b2]) f addr)
      (zipWith_seq_ofList [a] [b1, b2] f)) _ rfl 2 (by simp)).2.1
    simpa using this
  · have := (lawful_list (lawful_congr
      (zipWith_lawful (containerView_lawful [b1, b2]) (containerView_lawful [a])
        (fun y x => f x y) addr)
      (zipWith_seq_ofList [b1, b2] [a] (fun y x => f x y))) _ rfl 2 (by simp)).2.1
    simpa using this

theorem zipWith_terminal_witness :
    ∃ it, stateAfter (zipWith [1, 2, 3] [4, 5] (lift2 Option (fun x y => x + y)) 0) 2 = some it ∧
      (it.itA = 3 ↔ it.itB = 2) :=
  let ⟨it, h1, h2, _⟩ := (zipWith_terminal [1, 2, 3] [4, 5] (fun x y => x + y) 0 2
    (ContainerView Option [1, 2, 3]) (ContainerView Option [4, 5])
    (lift2 Option (fun x y => x + y)) ⟨0, 0, 0, 3, 2, none⟩ 1 1 1 4 5).1 (by decide)
  ⟨it, h1, h2⟩

/-- C24: `Take` canonical terminal state, for a non-empty container `S` and
`1 ≤ n` (a `size_t`).  The iterator after `k ≤ min(n, len S)` increments from `begin()`
has counter `0` exactly when its cursor is `S`'s end: before the minimum the cursor is
`begin()` advanced `k` times and the counter is `n - k`; at the minimum the state is
exactly `(S.end(), 0)`, which is what `end()` returns (further increments are
increments of a container's end iterator, which are undefined).  For any source view,
an increment in which the counter reaches zero stores the source's end and counter
`0`, and one in which the cursor comes to equal the source's end stores counter `0`. -/
theorem take_terminal (S : List α) (n k : Nat) (hS : S ≠ []) (hn1 : 1 ≤ n)
    (hn : n < sizeModulus) (v : View Option ι α) (t : Take.Iterator ι) (c : ι) :
    (k ≤ min n S.length →
      ∃ it, stateAfter (take Option S n) k = some it ∧
        (it.n = 0 ↔ it.it = S.length) ∧
        (k < min n S.length → it.it = k ∧ it.n = n - k) ∧
        (k = min n S.length → it = ⟨S.length, 0, S.length⟩)) ∧
      (min n S.length < k → stateAfter (take Option S n) k = none) ∧
      (take Option S n).end_ = some ⟨S.length, 0, S.length⟩ ∧
      (v.incr t.it = some c → (t.n + sizeModulus - 1) % sizeModulus = 0 →
        v.eq t.end_ t.end_ = true → (Take v n).incr t = some ⟨t.end_, 0, t.end_⟩) ∧
      (v.incr t.it = some c → (t.n + sizeModulus - 1) % sizeModulus ≠ 0 →
        v.eq c t.end_ = true → (Take v n).incr t = some ⟨c, 0, t.end_⟩) := by
  have hpos : 0 < S.length := List.length_pos.2 hS
  have hlaw := lawful_congr (take_lawful (containerView_lawful S) n hn) (take_seq_ofList S n)
  have hlen : (S.take n).length = min n S.length := List.length_take n S
  have hreach : ∀ k, k ≤ min n S.length →
      ∃ it, stateAfter (take Option S n) k = some it ∧
        (it.n = 0 ↔ it.it = S.length) ∧
        (k < min n S.length → it.it = k ∧ it.n = n - k) ∧
        (k = min n S.length → it = ⟨S.length, 0, S.length⟩) := by
    intro k hk
    obtain ⟨it, hit, hp⟩ := stateAfter_of_lawful hlaw k
      (fun i hi => ofList_ne_none (by rw [hlen]; omega))
    refine ⟨it, hit, ?_⟩
    obtain ⟨hE, _, hc⟩ := hp
    have hE' : it.end_ = S.length := (Option.some.inj hE).symm
    rw [if_neg (by omega)] at hc
    by_cases hlt : k < min n S.length
    · have hcond : k < n ∧ (ofList S k).isSome = true :=
        ⟨by omega, Option.isSome_iff_ne_none.2 (ofList_ne_none (by omega))⟩
      rw [if_pos hcond] at hc
      obtain ⟨⟨h1, _⟩, h2⟩ := hc
      refine ⟨?_, fun _ => ⟨h1, h2⟩, fun h => by omega⟩
      constructor <;> intro h <;> omega
    · have hcond : ¬ (k < n ∧ (ofList S k).isSome = true) := by
        rintro ⟨h1, h2⟩
        have : k < S.length := by
          by_contra hge
          simp [ofList, List.getElem?_eq_none (Nat.le_of_not_lt hge)] at h2
        omega
      rw [if_neg hcond] at hc
      obtain ⟨h1, h2⟩ := hc
      have hk0 : k ≠ 0 := by omega
      rw [if_neg hk0] at h2
      have e1 : it.it = S.length := by
        rw [hE'] at h1; simpa [ContainerView] using h1
      refine ⟨⟨fun _ => e1, fun _ => h2⟩, fun h => absurd h hlt, fun _ => ?_⟩
      cases it
      simp only at e1 h2 hE'
      subst e1 h2 hE'
      rfl
  refine ⟨hreach k, ?_, ?_, ?_, ?_⟩
  · intro hk
    obtain ⟨it, hit, _, _, hend⟩ := hreach (min n S.length) (Nat.le_refl _)
    have e := hend rfl
    subst e
    refine stateAfter_none _ _ _ hit ?_ k hk
    simp [take, Take, Take.Iterator.incr, view, ContainerView, MonadStuck.stuck]
  · have h0 : n ≠ 0 := by omega
    have hne : ¬ (0 = S.length) := by omega
    simp [take, Take, view, ContainerView, h0, hne]
  · intro h1 h2 h3
    simp [Take, Take.Iterator.incr, h1, h2, h3]
  · intro h1 h2 h3
    simp [Take, Take.Iterator.incr, h1, h2, h3]

theorem take_terminal_witness :
    ([1, 2, 3] : List Nat) ≠ [] ∧ 1 ≤ 2 ∧ 2 < sizeModulus ∧
      (take Option [1, 2, 3] 2).end_ = some ⟨3, 0, 3⟩ ∧
      stateAfter (take Option [1, 2, 3] 2) 3 = none :=
  ⟨by decide, by decide, by decide,
    (take_terminal [1, 2, 3] 2 3 (by decide) (by decide) (by decide)
      (ContainerView Option [1, 2, 3]) ⟨0, 2, 3⟩ 1).2.2.1,
    (take_terminal [1, 2, 3] 2 3 (by decide) (by decide) (by decide)
      (ContainerView Option [1, 2, 3]) ⟨0, 2, 3⟩ 1).2.1 (by decide)⟩

/-- C26: `Filter` position invariant over a container `S`.  `begin()` is at the first
element of `S` satisfying `p`, or at `S`'s end if there is none: every element before
its cursor fails `p`.  The iterator after `k ≤ |filter p S|` increments is at `S`'s end
or at an element satisfying `p`, with `k` matches before it (further increments are
increments at `S`'s end, which are undefined).  From any index `i` inside `S`,
`operator++` moves the cursor to an index `i' > i`, at most `S`'s end, such that every
element strictly between fails `p` and `i'` is `S`'s end or holds an element satisfying
`p`. -/
theorem filter_position (S : List α) (p : α → Bool) (addr fuel k i fn : Nat)
    (hfuel : S.length < fuel) :
    (∃ b, (filter fuel S (lift1 Option p) addr).begin = some b ∧ b.it ≤ S.length ∧
        (∀ j, j < b.it → ∀ x, S[j]? = some x → p x = false) ∧
        (∀ x, S[b.it]? = some x → p x = true)) ∧
      (k ≤ (S.filter p).length →
        ∃ t, stateAfter (filter fuel S (lift1 Option p) addr) k = some t ∧
          t.it ≤ S.length ∧ (∀ x, S[t.it]? = some x → p x = true) ∧
          ((S.take t.it).filter p).length = k) ∧
      ((S.filter p).length < k →
        stateAfter (filter fuel S (lift1 Option p) addr) k = none) ∧
      (i < S.length →
        ∃ i', (filter fuel S (lift1 Option p) addr).incr ⟨fn, i, S.length⟩
            = some ⟨fn, i', S.length⟩ ∧ i < i' ∧ i' ≤ S.length ∧
          (∀ j, i < j → j < i' → ∀ x, S[j]? = some x → p x = false) ∧
          (∀ x, S[i']? = some x → p x = true)) := by
  have hsrc := containerView_lawful S
  have hlaw := filter_lawful hsrc p addr fuel hfuel
  have hreach : ∀ k, k ≤ (S.filter p).length →
      ∃ t, stateAfter (filter fuel S (lift1 Option p) addr) k = some t ∧
        t.it ≤ S.length ∧ (∀ x, S[t.it]? = some x → p x = true) ∧
        ((S.take t.it).filter p).length = k := by
    intro k hk
    obtain ⟨t, ht, hp⟩ := stateAfter_of_lawful hlaw k (fun i hi => ofList_ne_none (by omega))
    obtain ⟨_, _, j, ⟨hj, _⟩, hle, hc, hat⟩ := hp
    exact ⟨t, ht, by rw [hj]; exact hle, by rw [hj]; exact hat, by rw [hj]; exact hc⟩
  refine ⟨?_, hreach k, ?_, ?_⟩
  · obtain ⟨it', i', hl, ⟨hi', _⟩, _, hle, hall, hat⟩ :=
      filter_beginLoop_spec hsrc p fuel 0 0 ⟨rfl, Nat.zero_le _⟩ (Nat.zero_le _) (by omega)
    subst hi'
    have hb0 : (ContainerView Option S).begin = some 0 := rfl
    have he0 : (ContainerView Option S).end_ = some S.length := rfl
    refine ⟨⟨addr, it', S.length⟩, ?_, hle, fun j hj => hall j (Nat.zero_le _) hj, hat⟩
    simp [filter, detail.Filter, view, hb0, he0, hl]
  · intro hk
    obtain ⟨t, ht, hle, hat, hc⟩ := hreach (S.filter p).length (Nat.le_refl _)
    have hend : t.it = S.length := by
      by_contra hne
      have hlt : t.it < S.length := by omega
      have hx : S[t.it]? = some S[t.it] := List.getElem?_eq_getElem hlt
      have h1 := count_take_succ_of_true S p hx (hat _ hx)
      have h2 : ((S.take (t.it + 1)).filter p).length ≤ (S.filter p).length := by
        have hsub : (S.take (t.it + 1)).filter p = (S.filter p).take
            ((S.take (t.it + 1)).filter p).length := by
          conv_rhs => rw [← List.take_append_drop (t.it + 1) S, List.filter_append]
          simp
        rw [hsub, List.length_take]
        omega
      omega
    refine stateAfter_none _ _ t ht ?_ k hk
    cases fuel with
    | zero => rfl
    | succ fuel =>
      simp [filter, detail.Filter, Filter.Iterator.incrLoop, view, ContainerView, hend,
        MonadStuck.stuck]
  · intro hi
    obtain ⟨it', i', hl, ⟨hi', _⟩, hlt, hle, hall, hat⟩ :=
      filter_incrLoop_spec hsrc p rfl fuel i ⟨fn, i, S.length⟩ ⟨rfl, Nat.le_of_lt hi⟩ rfl hi
        (by omega)
    subst hi'
    exact ⟨it', hl, hlt, hle, hall, hat⟩

theorem filter_position_witness :
    [1, 3, 4, 5, 6].length < 6 ∧
      ∃ t, stateAfter (filter 6 [1, 3, 4, 5, 6] (lift1 Option (fun x => x % 2 == 0)) 0) 1
          = some t ∧ t.it ≤ 5 ∧
        ((([1, 3, 4, 5, 6] : List Nat).take t.it).filter (fun x => x % 2 == 0)).length = 1 :=
  let ⟨t, h1, h2, _, h3⟩ := (filter_position [1, 3, 4, 5, 6] (fun x => x % 2 == 0) 0 6 1 0 0
    (by decide)).2.1 (by decide)
  ⟨by decide, t, h1, h2, h3⟩

/-- C27, as amended: `take(S, n).end()` evaluates `S.begin()` for every `n` (for
`n != 0` to test whether `S` is empty, for `n == 0` as the cursor of the iterator it
returns), and for `S = filter(T, p)` this re-runs `Filter`'s leading skip scan.  So
`end()` on `take(filter(T, p), n)` invokes `p` once on every element of `T` up to and
including the first one satisfying `p`, also when `n == 0`; one `begin()` plus one
`end()` invokes `p` twice on each of them, and with `T = map(U, f)` invokes `f` and then
`p` on each of them, twice.  `filter(T, p).end()` itself invokes `p` zero times. -/
theorem take_end_rescans (T : List α) (U : List γ) (f : γ → α) (p : α → Bool)
    (a b fuel n : Nat) (tr : List Event) (hT : T.length < fuel) (hU : U.length < fuel) :
    (∃ e, ((take Traced (filter fuel T (traced1 a p) a) n).end_).run tr
        = some (e, tr ++ List.replicate (leadingCalls p T) (Event.call a))) ∧
      (∃ r, (beginThenEnd (take Traced (filter fuel T (traced1 a p) a) n)).run tr
        = some (r, tr ++ List.replicate (leadingCalls p T) (Event.call a)
            ++ List.replicate (leadingCalls p T) (Event.call a))) ∧
      (∃ r, (beginThenEnd
          (take Traced (filter fuel (map U (traced1 b f) b) (traced1 a p) a) n)).run tr
        = some (r, tr ++ scanEvents b a (leadingCalls (fun x => p (f x)) U)
            ++ scanEvents b a (leadingCalls (fun x => p (f x)) U))) ∧
      leadingCalls p T = min ((T.takeWhile (fun x => !p x)).length + 1) T.length ∧
      ((filter fuel T (traced1 a p) a).end_).run tr = some (⟨a, T.length, T.length⟩, tr) := by
  have hb : ∀ tr, ∃ b0, ((filter fuel T (traced1 a p) a).begin).run tr
      = some (b0, tr ++ List.replicate (leadingCalls p T) (Event.call a)) :=
    fun tr => ⟨_, filter_begin_trace T p a fuel tr hT⟩
  have he : ∀ tr, ((filter fuel T (traced1 a p) a).end_).run tr
      = some (⟨a, T.length, T.length⟩, tr) := by
    intro tr
    simp [filter, detail.Filter, view, ContainerView]
  refine ⟨?_, ?_, ?_, leadingCalls_eq p T, he tr⟩
  · exact take_end_run _ n _ hb (fun tr => ⟨_, he tr⟩) tr
  · exact take_begin_end_run _ n _ hb (fun tr => ⟨_, he tr⟩) tr
  · exact take_begin_end_run _ n _ (fun tr => filter_map_begin_trace U f p a b fuel hU tr)
      (fun tr => filter_map_end_trace U f p a b fuel tr) tr

theorem take_end_rescans_witness :
    ([1, 3, 4, 5] : List Nat).length < 5 ∧ ([0, 2, 3] : List Nat).length < 5 ∧
      ∃ e, ((take Traced (filter 5 [1, 3, 4, 5] (traced1 7 (fun x => x % 2 == 0)) 7) 2).end_).run []
        = some (e, [] ++ List.replicate (leadingCalls (fun x => x % 2 == 0) [1, 3, 4, 5])
            (Event.call 7)) :=
  ⟨by decide, by decide,
    (take_end_rescans [1, 3, 4, 5] [0, 2, 3] (fun x => x + 1) (fun x => x % 2 == 0) 7 8 5 2 []
      (by decide) (by decide)).1⟩

/-- C27, the counterexample: `end()` with `n == 0` on `take(filter([1, 2], even), 0)`
invokes the predicate (stored at address 7) twice, on `1` and on `2`, not zero
times. -/
theorem take_end_rescans_counterexample :
    (((take Traced (filter 3 ([1, 2] : List Nat) (traced1 7 (fun x => x % 2 == 0)) 7) 0).end_).run
        []).map (fun r => r.2) = some [Event.call 7, Event.call 7] ∧
      (((take Traced (filter 3 ([1, 2] : List Nat) (traced1 7 (fun x => x % 2 == 0)) 7) 0).end_).run
        []).map (fun r => r.2) ≠ some [] := by
  constructor
  · rfl
  · intro h
    cases h

end Claims

end Ranges
